import Mathlib

/-!
# Verification of the log-viewer time-indexed log reader

This file is a shallow embedding, in Lean 4, of the core of the `log-viewer`
repository: the record parser, the filter evaluator, the byte-offset locator
(`findOffsetForDate`), the streaming reader (`streamLogs`), the bulk reader
(`readLogs`), the single-slot offset cache, the tailer (`readNewContent`),
the authentication gate (`checkAuth`) and the SSE live-stream composition.
The definitions are translated from the current revision of the library
(the revision carrying the module filter and strict streaming parser, i.e.
the `findOffsetForDate` / `streamLogs` / `readLogs` / `filterLog` found in
`src/frontend.tsx`, the server routes found in `ecosystem.config.js`, and
`checkAuth` from `lib/auth`).

Modelling conventions:

* A JavaScript string is modelled as its list of UTF-16 code units,
  `CStr := List Nat`.  All concrete inputs in this development are ASCII,
  so byte offsets (`Bun.file.slice`) and string offsets (`String.length`)
  coincide, as they do in the source for ASCII log files; `TextDecoder`
  is the identity on such inputs.
* The log file is a `CStr`; `file.slice(a, b).text()` is
  `(file.drop a).take (b - a)`.
* `JSON.parse` is modelled by `jsonParseObj`, a parser for flat JSON
  objects (string, integer, boolean and null values, no escape sequences,
  no nested containers).  Every concrete line used in a theorem below is
  within this fragment, where the model agrees with `JSON.parse`; lines
  outside the fragment are rejected, as `JSON.parse` rejects every
  concrete non-JSON line used below.
* `date-fns/parseISO` (with the `new Date` fallback) is modelled by
  `parseLogDate`, covering the grammar the spec names: a full instant
  with zone, a naive instant (the server runs in UTC, so naive = UTC),
  the space-separated form, and the date-only form.  Epoch arithmetic
  uses the standard civil-from-days algorithm.
* Streams deliver their bytes in implementation-chosen chunks; the reader
  functions therefore take the chunk decomposition as an explicit
  argument (`sizes : List Nat`), and theorems quantify over it.
* The wall clock (`new Date()`) is passed explicitly where the source
  consults it (`nowStr` for the permissive parser, the current civil day
  for `getTodayStart`/`getTodayEnd`).
-/

set_option linter.unusedVariables false

/-- A JavaScript string: a list of UTF-16 code units. -/
abbrev CStr := List Nat

/-- Code units for the characters the embedding manipulates by name. -/
def nlC : Nat := 10

def codes (s : String) : CStr := s.data.map Char.toNat

/-- JavaScript `trim` whitespace for the characters appearing in log lines. -/
def isWsC (c : Nat) : Bool := c = 32 || c = 9 || c = 13 || c = 10

/-- `!s.trim()`: the string is empty after trimming. -/
def isBlank (s : CStr) : Bool := s.all isWsC

/-- `s.indexOf('\n')`, with `none` for JavaScript's `-1`. -/
def idxOfNl : CStr → Option Nat
  | [] => none
  | c :: rest =>
    if c = nlC then some 0
    else match idxOfNl rest with
      | some i => some (i + 1)
      | none => none

/-- `s.split('\n')`.  Always returns a non-empty list. -/
def splitNl : CStr → List CStr
  | [] => [[]]
  | c :: rest =>
    let r := splitNl rest
    if c = nlC then [] :: r else (c :: r.headD []) :: r.tail

/-! ## Instants and `parseLogDate` -/

/-- Digit test. -/
def isDigitC (c : Nat) : Bool := 48 ≤ c && c ≤ 57

def digitVal (c : Nat) : Nat := c - 48

/-- Read exactly `n` digits, returning their value and the rest. -/
def readDigits : Nat → CStr → Option (Nat × CStr)
  | 0, s => some (0, s)
  | n + 1, [] => none
  | n + 1, c :: s =>
    if isDigitC c then
      match readDigits n s with
      | some (v, rest) => some (digitVal c * 10 ^ n + v, rest)
      | none => none
    else none

/-- Days from the epoch 1970-01-01 of a civil date (valid for year ≥ 1;
the standard civil-calendar conversion). -/
def daysFromCivil (y m d : Nat) : Int :=
  let y2 : Nat := if m ≤ 2 then y - 1 else y
  let era : Nat := y2 / 400
  let yoe : Nat := y2 - era * 400
  let mp : Nat := (m + 9) % 12
  let doy : Nat := (153 * mp + 2) / 5 + d - 1
  let doe : Nat := yoe * 365 + yoe / 4 - yoe / 100 + doy
  (era * 146097 + doe : Int) - 719468

/-- Milliseconds since the epoch of a civil date-time plus zone offset. -/
def msOfCivil (y m d h mi s ms : Nat) (zoneMin : Int) : Int :=
  daysFromCivil y m d * 86400000 + h * 3600000 + mi * 60000 + s * 1000 + ms
    - zoneMin * 60000

/-- Range validation mirroring which strings `parseISO` accepts as valid. -/
def validDate (y m d : Nat) : Bool :=
  1 ≤ y && 1 ≤ m && m ≤ 12 && 1 ≤ d && d ≤ 31

def validTime (h mi s : Nat) : Bool := h ≤ 23 && mi ≤ 59 && s ≤ 59

/-- Fractional seconds: one or more digits, scaled to milliseconds. -/
def readFrac (s : CStr) : Option (Nat × CStr) :=
  match s with
  | c :: rest =>
    if isDigitC c then
      match readFrac rest with
      | some (v, r) => some (v, r)
      | none => some (0, rest)
    else none
  | [] => none

/-- First three fractional digits as milliseconds. -/
def fracMs (s : CStr) : Nat × CStr :=
  let digs := s.takeWhile isDigitC
  let rest := s.dropWhile isDigitC
  let d3 := digs.take 3
  let v := d3.foldl (fun a c => a * 10 + digitVal c) 0
  (v * 10 ^ (3 - d3.length), rest)

/-- Zone suffix: end of input (naive, treated as UTC since the server runs
in UTC), `Z`, or `±HH:MM`.  Returns the zone offset in minutes. -/
def readZone (s : CStr) : Option Int :=
  match s with
  | [] => some 0
  | [c] => if c = 90 then some 0 else none
  | c :: rest =>
    if c = 43 || c = 45 then
      match readDigits 2 rest with
      | some (zh, r1) =>
        match r1 with
        | c2 :: r2 =>
          if c2 = 58 then
            match readDigits 2 r2 with
            | some (zm, []) =>
              if zh ≤ 23 && zm ≤ 59 then
                some (if c = 43 then (zh * 60 + zm : Int) else -(zh * 60 + zm : Int))
              else none
            | _ => none
          else none
        | [] => none
      | none => none
    else none

/-- The time-of-day part `HH:MM:SS(.frac)?(zone)?`. -/
def readTimePart (y m d : Nat) (s : CStr) : Option Int :=
  match readDigits 2 s with
  | some (h, c1 :: r1) =>
    if c1 = 58 then
      match readDigits 2 r1 with
      | some (mi, c2 :: r2) =>
        if c2 = 58 then
          match readDigits 2 r2 with
          | some (sec, r3) =>
            if validTime h mi sec then
              let (ms, r4) :=
                match r3 with
                | 46 :: r => if (r.takeWhile isDigitC) = [] then (1000, r3) else fracMs r
                | _ => (0, r3)
              if ms = 1000 then none
              else match readZone r4 with
                | some z => some (msOfCivil y m d h mi sec ms z)
                | none => none
            else none
          | _ => none
        else none
      | _ => none
    else none
  | _ => none

/-- `parseLogDate` from `frontend.tsx`: `parseISO` with a `new Date`
fallback, modelled on the instant grammar of the spec.  Returns the
millisecond timestamp, or `none` for the source's `null`. -/
def parseLogDate (s : CStr) : Option Int :=
  match readDigits 4 s with
  | some (y, c1 :: r1) =>
    if c1 = 45 then
      match readDigits 2 r1 with
      | some (m, c2 :: r2) =>
        if c2 = 45 then
          match readDigits 2 r2 with
          | some (d, r3) =>
            if validDate y m d then
              match r3 with
              | [] => some (msOfCivil y m d 0 0 0 0 0)
              | c3 :: r4 =>
                if c3 = 84 || c3 = 32 then readTimePart y m d r4 else none
            else none
          | none => none
        else none
      | _ => none
    else none
  | _ => none

/-- `parseLogDate` lifted to a possibly-missing `time` field. -/
def parseLogDateOpt : Option CStr → Option Int
  | none => none
  | some s => parseLogDate s

/-- `compareDates` from `frontend.tsx` (via `isBefore` / `isAfter`). -/
def compareDates (a b : Int) : Int :=
  if a < b then -1 else if b < a then 1 else 0

/-! ## JSON lines and the two parsers -/

/-- A flat JSON value (see the modelling notes in the header). -/
inductive JVal where
  | str : CStr → JVal
  | num : Int → JVal
  | bool : Bool → JVal
  | null : JVal
deriving DecidableEq, Repr

def skipWs (s : CStr) : CStr := s.dropWhile isWsC

/-- A JSON string literal without escapes: `"…"`. -/
def readJStr (s : CStr) : Option (CStr × CStr) :=
  match s with
  | 34 :: rest =>
    let body := rest.takeWhile (fun c => ¬ (c = 34 || c = 92 || c = 10))
    match rest.drop body.length with
    | 34 :: r => some (body, r)
    | _ => none
  | _ => none

/-- A JSON integer literal. -/
def readJNum (s : CStr) : Option (Int × CStr) :=
  match s with
  | 45 :: rest =>
    let digs := rest.takeWhile isDigitC
    if digs = [] then none
    else some (-(digs.foldl (fun a c => a * 10 + digitVal c) 0 : Int),
      rest.drop digs.length)
  | _ =>
    let digs := s.takeWhile isDigitC
    if digs = [] then none
    else some ((digs.foldl (fun a c => a * 10 + digitVal c) 0 : Int),
      s.drop digs.length)

def readJVal (s : CStr) : Option (JVal × CStr) :=
  match s with
  | 34 :: _ =>
    match readJStr s with
    | some (v, r) => some (JVal.str v, r)
    | none => none
  | 116 :: 114 :: 117 :: 101 :: r => some (JVal.bool true, r)
  | 102 :: 97 :: 108 :: 115 :: 101 :: r => some (JVal.bool false, r)
  | 110 :: 117 :: 108 :: 108 :: r => some (JVal.null, r)
  | _ =>
    match readJNum s with
    | some (v, r) => some (JVal.num v, r)
    | none => none

/-- One `"key": value` pair. -/
def readJPair (s : CStr) : Option ((CStr × JVal) × CStr) :=
  match readJStr (skipWs s) with
  | some (k, r1) =>
    match skipWs r1 with
    | 58 :: r2 =>
      match readJVal (skipWs r2) with
      | some (v, r3) => some ((k, v), r3)
      | none => none
    | _ => none
  | none => none

/-- The comma-separated pairs of an object body (fuel-bounded; the fuel is
always the remaining length plus one, and every pair consumes at least
five characters, so the bound is never reached on any input). -/
def readJPairs (fuel : Nat) (s : CStr) : Option (List (CStr × JVal) × CStr) :=
  match fuel with
  | 0 => none
  | fuel + 1 =>
    match readJPair s with
    | some (p, r) =>
      match skipWs r with
      | 44 :: r2 =>
        match readJPairs fuel r2 with
        | some (ps, r3) => some (p :: ps, r3)
        | none => none
      | r2 => some ([p], r2)
    | none => none

/-- `JSON.parse` on one line, for the flat-object fragment. -/
def jsonParseObj (s : CStr) : Option (List (CStr × JVal)) :=
  match skipWs s with
  | 123 :: r =>
    match skipWs r with
    | 125 :: r2 => if skipWs r2 = [] then some [] else none
    | _ =>
      match readJPairs (s.length + 1) r with
      | some (ps, r2) =>
        match skipWs r2 with
        | 125 :: r3 => if skipWs r3 = [] then some ps else none
        | _ => none
      | none => none
  | _ => none

/-- A parsed log record.  Field values mirror the JavaScript object:
a missing key is `none`; a key bound to a non-string JSON value is
modelled as the one-character string `[0]`, which is never a valid
level, module or instant, matching how such values behave in the
source's comparisons. -/
structure LogEntry where
  level : Option CStr
  time : Option CStr
  module : Option CStr
  msg : Option CStr
deriving DecidableEq, Repr

/-- Last-wins key lookup (JavaScript object semantics). -/
def jLookup (ps : List (CStr × JVal)) (k : CStr) : Option JVal :=
  match ps.reverse.find? (fun p => p.1 = k) with
  | some p => some p.2
  | none => none

def jFieldStr (ps : List (CStr × JVal)) (k : CStr) : Option CStr :=
  match jLookup ps k with
  | some (JVal.str s) => some s
  | some _ => some [0]
  | none => none

def entryOfPairs (ps : List (CStr × JVal)) : LogEntry :=
  { level := jFieldStr ps (codes "level")
    time := jFieldStr ps (codes "time")
    module := jFieldStr ps (codes "module")
    msg := jFieldStr ps (codes "msg") }

/-- `parseLogLine` (permissive): non-JSON lines become synthetic records
with `level = "info"`, `time = new Date().toISOString()` (the `nowStr`
parameter), `msg = line`. -/
def parseLogLine (nowStr : CStr) (line : CStr) : Option LogEntry :=
  if isBlank line then none
  else match jsonParseObj line with
    | some ps => some (entryOfPairs ps)
    | none => some ⟨some (codes "info"), some nowStr, none, some line⟩

/-- `parseLogLineStrict`: JSON only, and the `time` field must be truthy
and parse to a valid instant. -/
def parseLogLineStrict (line : CStr) : Option LogEntry :=
  if isBlank line then none
  else match jsonParseObj line with
    | some ps =>
      match (entryOfPairs ps).time with
      | none => none
      | some t =>
        if t = [] then none
        else match parseLogDate t with
          | some _ => some (entryOfPairs ps)
          | none => none
    | none => none

/-- The instant of a strict record of a line, when the line is strict. -/
def strictTime (line : CStr) : Option Int :=
  match parseLogLineStrict line with
  | some e => parseLogDateOpt e.time
  | none => none

/-! ## The filter evaluator (`filterLog`, `frontend.tsx`) -/

/-- A filter specification.  `fromT`/`toT` are the source's `from`/`to`
(already converted to instants by `parseFilter`); a missing array is
`none`, matching `filter.level === undefined`. -/
structure LogFilter where
  fromT : Option Int
  toT : Option Int
  level : Option (List CStr)
  module : Option (List CStr)
  limit : Option Nat
  offset : Option Nat
deriving DecidableEq, Repr

def LogFilter.empty : LogFilter := ⟨none, none, none, none, none, none⟩

/-- `filterLog` from `frontend.tsx` (the revision with the module set). -/
def filterLog (e : LogEntry) (f : LogFilter) : Bool :=
  -- level membership
  (match f.level with
   | some ls =>
     if ls.length > 0 then
       match e.level with
       | some l => ls.contains l
       | none => false
     else true
   | none => true) &&
  -- module membership (a falsy module is rejected outright)
  (match f.module with
   | some ms =>
     if ms.length > 0 then
       match e.module with
       | some m => if m = [] then false else ms.contains m
       | none => false
     else true
   | none => true) &&
  -- inclusive time bounds
  (if f.fromT.isSome || f.toT.isSome then
     match parseLogDateOpt e.time with
     | none => false
     | some t =>
       (match f.fromT with
        | some lo => decide (¬ t < lo)
        | none => true) &&
       (match f.toT with
        | some hi => decide (¬ hi < t)
        | none => true)
   else true)

/-! ## The offset locator (`findOffsetForDate`, `frontend.tsx`) -/

/-- `file.slice(a, b).text()`. -/
def sliceCS (file : CStr) (a b : Nat) : CStr := (file.drop a).take (b - a)

/-- Outcome of the forward search for a JSON line inside a probe chunk. -/
inductive ProbeStep where
  | setLow : Nat → ProbeStep
  | setHigh : ProbeStep
  | noJson : ProbeStep
deriving DecidableEq, Repr

/-- The forward search of the locator's non-JSON branch: iterate
`remainingChunk.split('\n').slice(1)`, bumping `searchOffset` by each
line's length plus one before testing it (exactly as the source does,
including its accounting). -/
def searchJson (target : Int) : List CStr → Nat → ProbeStep
  | [], _ => ProbeStep.noJson
  | l :: rest, searchOffset =>
    let so2 := searchOffset + l.length + 1
    if isBlank l then searchJson target rest so2
    else match parseLogLineStrict l with
      | some e =>
        match parseLogDateOpt e.time with
        | some d => if d < target then ProbeStep.setLow so2 else ProbeStep.setHigh
        | none => searchJson target rest so2
      | none => searchJson target rest so2

/-- The binary-search loop of `findOffsetForDate`.  The fuel argument is
structural recursion bookkeeping only: every iteration strictly shrinks
`high - low` (each branch either raises `low` above `mid` or lowers
`high` to `mid`, and `low + 32768 ≤ mid ≤ high - 32768` while the loop
guard holds), so with fuel `fileSize + 1` the `0` case is unreachable. -/
def binLoop (file : CStr) (fileSize : Nat) (target : Int) :
    Nat → Nat → Nat → Nat
  | 0, low, _ => low
  | fuel + 1, low, high =>
    if high - low ≤ 65536 then low
    else
      let mid := (low + high) / 2
      let chunkSize := min 4096 (fileSize - mid)
      let chunk := sliceCS file mid (mid + chunkSize)
      match idxOfNl chunk with
      | none =>
        let largerChunkSize := min 4194304 (fileSize - mid)
        if largerChunkSize > chunkSize then
          let largerChunk := sliceCS file mid (mid + largerChunkSize)
          match idxOfNl largerChunk with
          | some lnp =>
            let rest := largerChunk.drop (lnp + 1)
            let lineL :=
              match idxOfNl rest with
              | none => rest
              | some nn => rest.take nn
            if ¬ isBlank lineL then
              match parseLogLineStrict lineL with
              | some e =>
                match parseLogDateOpt e.time with
                | some d =>
                  if compareDates d target < 0 then
                    binLoop file fileSize target fuel
                      (mid + lnp + 1 + lineL.length + 1) high
                  else binLoop file fileSize target fuel low mid
                | none => binLoop file fileSize target fuel low mid
              | none => binLoop file fileSize target fuel low mid
            else binLoop file fileSize target fuel low mid
          | none => binLoop file fileSize target fuel low mid
        else binLoop file fileSize target fuel low mid
      | some newlinePos =>
        let restOfChunk := chunk.drop (newlinePos + 1)
        let line :=
          match idxOfNl restOfChunk with
          | none => restOfChunk
          | some nn => restOfChunk.take nn
        if isBlank line then binLoop file fileSize target fuel low mid
        else match parseLogLineStrict line with
          | none =>
            match searchJson target ((splitNl restOfChunk).drop 1)
                (mid + newlinePos + 1) with
            | ProbeStep.setLow so => binLoop file fileSize target fuel so high
            | ProbeStep.setHigh => binLoop file fileSize target fuel low mid
            | ProbeStep.noJson =>
              binLoop file fileSize target fuel (mid + chunkSize) high
          | some e =>
            match parseLogDateOpt e.time with
            | some d =>
              if compareDates d target < 0 then
                binLoop file fileSize target fuel (mid + newlinePos + 1) high
              else binLoop file fileSize target fuel low mid
            | none => binLoop file fileSize target fuel low mid

/-- The linear confirmation scan's line loop.  Returns the first strict
line whose instant is `≥ target`, with its computed offset. -/
def scanLines (target : Int) : List CStr → Nat → Option (Nat × CStr)
  | [], _ => none
  | line :: rest, offset =>
    if isBlank line then scanLines target rest (offset + line.length + 1)
    else match parseLogLineStrict line with
      | some e =>
        match parseLogDateOpt e.time with
        | some d =>
          if compareDates d target ≥ 0 then some (offset, line)
          else scanLines target rest (offset + line.length + 1)
        | none => scanLines target rest (offset + line.length + 1)
      | none => scanLines target rest (offset + line.length + 1)

/-- The confirmation scan of `findOffsetForDate`: one window of
`min 262144 (fileSize - low)` characters from `low`; when `low > 0` the
first (possibly partial) line is discarded, the cursor advancing past it
only when it is non-empty. -/
def scanPhase (file : CStr) (fileSize : Nat) (target : Int) (low : Nat) :
    Nat × CStr :=
  let scanSize := min 262144 (fileSize - low)
  let scanChunk := sliceCS file low (low + scanSize)
  let lines := splitNl scanChunk
  let startLines := if low > 0 then lines.drop 1 else lines
  let offset0 :=
    if low > 0 then
      low + (if lines.headD [] ≠ [] then (lines.headD []).length + 1 else 0)
    else low
  match scanLines target startLines offset0 with
  | some (o, l) => (o, l)
  | none => (low, [])

/-- `findOffsetForDate` from `frontend.tsx`: binary search followed by
the confirmation scan.  Returns `(offset, firstLine)`; the sentinel for
"no match" is an empty `firstLine`. -/
def findOffsetForDate (file : CStr) (target : Int) (fileSize : Nat) :
    Nat × CStr :=
  scanPhase file fileSize target (binLoop file fileSize target (fileSize + 1) 0 fileSize)

/-! ## The streaming reader (`streamLogs`, `frontend.tsx`) -/

/-- Decompose a slice into the chunks a stream delivers: the sizes list
is the implementation-chosen chunking, any remainder arriving as one
final chunk. -/
def chunksOf : List Nat → CStr → List CStr
  | [], s => if s = [] then [] else [s]
  | n :: rest, s => if s = [] then [] else s.take n :: chunksOf rest (s.drop n)

/-- `limit !== undefined && count >= limit`. -/
def limitReached (limit : Option Nat) (count : Nat) : Bool :=
  match limit with
  | none => false
  | some k => count ≥ k

/-- The reader's inner loop over the complete lines of one chunk,
with the source's two `break`s: the limit check, and the early exit
once a strict non-matching record lies beyond `to`. -/
def procLines (f : LogFilter) (limit : Option Nat) :
    List CStr → Nat → List LogEntry → Nat × List LogEntry
  | [], count, acc => (count, acc)
  | line :: rest, count, acc =>
    if limitReached limit count then (count, acc)
    else match parseLogLineStrict line with
      | none => procLines f limit rest count acc
      | some e =>
        if filterLog e f then procLines f limit rest (count + 1) (acc ++ [e])
        else match f.toT with
          | some hi =>
            match parseLogDateOpt e.time with
            | some t =>
              if hi < t then (count, acc)
              else procLines f limit rest count acc
            | none => procLines f limit rest count acc
          | none => procLines f limit rest count acc

/-- The reader's chunk loop: reassemble lines across chunk boundaries
through the carry buffer; stop reading chunks once the limit is
reached. -/
def procChunks (f : LogFilter) (limit : Option Nat) :
    List CStr → CStr → Nat → List LogEntry → CStr × Nat × List LogEntry
  | [], buffer, count, acc => (buffer, count, acc)
  | chunk :: rest, buffer, count, acc =>
    let lines := splitNl (buffer ++ chunk)
    let buf := lines.getLastD []
    let r := procLines f limit lines.dropLast count acc
    if limitReached limit r.1 then (buf, r.1, r.2)
    else procChunks f limit rest buf r.1 r.2

/-- Everything `streamLogs` emits once its read stream is opened on a
slice: the chunk loop followed by the final-carry step. -/
def readerEmit (f : LogFilter) (sizes : List Nat) (slice : CStr) :
    List LogEntry :=
  let r := procChunks f f.limit (chunksOf sizes slice) [] 0 []
  if ¬ limitReached f.limit r.2.1 && ¬ isBlank r.1 then
    match parseLogLineStrict r.1 with
    | some e => if filterLog e f then r.2.2 ++ [e] else r.2.2
    | none => r.2.2
  else r.2.2

/-! ## The offset cache and full `streamLogs` -/

/-- The process-wide single-slot offset cache. -/
structure OffsetCache where
  fromTimestamp : Int
  byteOffset : Nat
  validationLine : CStr
  fileSize : Nat
deriving DecidableEq, Repr

/-- `isCacheValidForDate` from `frontend.tsx`. -/
def isCacheValidForDate (cache : OffsetCache) (fromDate : Int) : Bool :=
  let timeDiff := fromDate - cache.fromTimestamp
  decide (0 ≤ timeDiff) && decide (timeDiff < 3600000)

/-- Result of a `streamLogs` call: the emitted records, the cache slot
as left behind, and the offset the read stream was opened at. -/
structure StreamResult where
  emitted : List LogEntry
  cache : Option OffsetCache
  startOffset : Nat
deriving DecidableEq, Repr

/-- `streamLogs` from `frontend.tsx`: consult and validate the cache,
fall back to the locator for files above 1 MiB, then stream from the
computed offset. -/
def streamLogs (sizes : List Nat) (cache0 : Option OffsetCache)
    (file : CStr) (filter : LogFilter) : StreamResult :=
  let fileSize := file.length
  let seed : Nat × Option OffsetCache :=
    match filter.fromT with
    | some fromDate =>
      let hit : Option Nat × Option OffsetCache :=
        match cache0 with
        | some c =>
          if c.fileSize ≤ fileSize && isCacheValidForDate c fromDate then
            let validationChunk :=
              sliceCS file c.byteOffset (c.byteOffset + c.validationLine.length + 100)
            if (splitNl validationChunk).headD [] = c.validationLine then
              (some c.byteOffset, some c)
            else (none, none)
          else (none, cache0)
        | none => (none, none)
      match hit with
      | (some off, c) => (off, c)
      | (none, c) =>
        if fileSize > 1048576 then
          let r := findOffsetForDate file fromDate fileSize
          (r.1, if r.2 ≠ [] then some ⟨fromDate, r.1, r.2, fileSize⟩ else c)
        else (0, c)
    | none => (0, cache0)
  ⟨readerEmit filter sizes (file.drop seed.1), seed.2, seed.1⟩

/-! ## The bulk reader (`readLogs`, `frontend.tsx`) -/

/-- `getTodayStart()`: local midnight of the current civil day (the
server clock runs in UTC in this model). -/
def getTodayStart (y m d : Nat) : Int := msOfCivil y m d 0 0 0 0 0

/-- `getTodayEnd()`: the last millisecond of the current civil day. -/
def getTodayEnd (y m d : Nat) : Int := msOfCivil y m d 23 59 59 999 0

/-- The bulk reader's per-line collection (permissive parser, no
breaks). -/
def collectLines (f : LogFilter) (nowStr : CStr) (lines : List CStr) :
    List LogEntry :=
  lines.filterMap fun l =>
    match parseLogLine nowStr l with
    | some e => if filterLog e f then some e else none
    | none => none

/-- The bulk reader's chunk loop. -/
def collectChunks (f : LogFilter) (nowStr : CStr) :
    List CStr → CStr → List LogEntry → CStr × List LogEntry
  | [], buffer, acc => (buffer, acc)
  | chunk :: rest, buffer, acc =>
    let lines := splitNl (buffer ++ chunk)
    collectChunks f nowStr rest (lines.getLastD [])
      (acc ++ collectLines f nowStr lines.dropLast)

/-- Result shape of `readLogs`. -/
structure ReadResult where
  logs : List LogEntry
  hasMore : Bool
  total : Nat
deriving DecidableEq, Repr

/-- The effective filter of `readLogs` (and of the old `streamLogs`):
missing bounds default to the current day. -/
def effectiveFilter (todayY todayM todayD : Nat) (filter : LogFilter) :
    LogFilter :=
  { filter with
    fromT := some (filter.fromT.getD (getTodayStart todayY todayM todayD))
    toT := some (filter.toT.getD (getTodayEnd todayY todayM todayD)) }

/-- The whole-file collection phase of `readLogs`: the chunk loop
followed by the final-carry step. -/
def bulkCollect (f : LogFilter) (nowStr : CStr) (sizes : List Nat)
    (file : CStr) : List LogEntry :=
  let r := collectChunks f nowStr (chunksOf sizes file) [] []
  if ¬ isBlank r.1 then
    match parseLogLine nowStr r.1 with
    | some e => if filterLog e f then r.2 ++ [e] else r.2
    | none => r.2
  else r.2

/-- `readLogs` from `frontend.tsx`: scan the whole file with the
permissive parser, collect matches, then apply `offset`/`limit`. -/
def readLogs (sizes : List Nat) (nowStr : CStr)
    (todayY todayM todayD : Nat) (file : CStr) (filter : LogFilter) :
    ReadResult :=
  let eff := effectiveFilter todayY todayM todayD filter
  let limit := eff.limit
  let offset := eff.offset.getD 0
  let matched := bulkCollect eff nowStr sizes file
  let total := matched.length
  let logs :=
    match limit with
    | some k => (matched.drop offset).take k
    | none => matched.drop offset
  ⟨logs,
   match limit with
   | some k => decide (offset + k < total)
   | none => false,
   total⟩

/-! ## The tailer (`tailLogs`/`readNewContent`, `frontend.tsx`) -/

/-- The tailer's mutable state: last observed size and carry buffer. -/
structure TailState where
  lastSize : Nat
  buffer : CStr
deriving DecidableEq, Repr

/-- One `readNewContent` run on a change event: read the appended bytes
when the file grew, and do nothing otherwise (the source has no branch
for a shrinking file). -/
def readNewContent (filter : LogFilter) (nowStr : CStr)
    (st : TailState) (file : CStr) : TailState × List LogEntry :=
  let currentSize := file.length
  if currentSize > st.lastSize then
    let newContent := sliceCS file st.lastSize currentSize
    let lines := splitNl (st.buffer ++ newContent)
    (⟨currentSize, lines.getLastD []⟩,
     collectLines filter nowStr lines.dropLast)
  else (st, [])

/-! ## The HTTP boundary (`checkAuth` from `lib/auth`, routes from
`ecosystem.config.js`) -/

/-- `checkAuth`: `some status` is the short-circuit error response. -/
def checkAuth (password : String) (pwd : Option String) : Option Nat :=
  if password = "" then some 500
  else if pwd ≠ some password then some 401
  else none

/-- What a route did: the response status, and whether the handler body
ran. -/
structure RouteOutcome where
  status : Nat
  ranHandler : Bool
deriving DecidableEq, Repr

/-- The three `/api/...` routes: return `checkAuth`'s error directly,
otherwise run the handler. -/
def apiRoute (password : String) (pwd : Option String)
    (handlerStatus : Nat) : RouteOutcome :=
  match checkAuth password pwd with
  | some s => ⟨s, false⟩
  | none => ⟨handlerStatus, true⟩

/-- The `/` route: on auth failure it serves the login page with a
plain `200`, not the error response. -/
def rootRoute (password : String) (pwd : Option String) : RouteOutcome :=
  match checkAuth password pwd with
  | some _ => ⟨200, false⟩
  | none => ⟨200, true⟩

/-! ## The live-stream endpoint (`/api/logs/stream`, `ecosystem.config.js`) -/

/-- Events of the SSE stream. -/
inductive SseEvent where
  | data : LogEntry → SseEvent
  | historicalEnd : Nat → SseEvent
deriving DecidableEq, Repr

def SseEvent.isEnd : SseEvent → Bool
  | SseEvent.historicalEnd _ => true
  | _ => false

/-- The `start()` body of the SSE stream (the non-cancelled run): each
historical record enqueues a `data` event and bumps `historicalCount`;
then the single `historical-end` sentinel carries the counter; a tailer
subscription is attached only when no limit is set, and otherwise the
stream is closed immediately after the sentinel. -/
def sseStart (filter : LogFilter) (historical : List LogEntry)
    (live : List LogEntry) : List SseEvent :=
  let h := historical.foldl
    (fun (p : List SseEvent × Nat) e => (p.1 ++ [SseEvent.data e], p.2 + 1))
    ([], 0)
  h.1 ++ [SseEvent.historicalEnd h.2] ++
    (match filter.limit with
     | none => live.map SseEvent.data
     | some _ => [])

/-- The `/api/logs/stream` handler after auth: historical records come
from `streamLogs`; `live` is what the tailer subscription delivers for
the rest of the connection. -/
def apiLogsStreamEvents (sizes : List Nat) (cache0 : Option OffsetCache)
    (file : CStr) (filter : LogFilter) (live : List LogEntry) :
    List SseEvent :=
  sseStart filter (streamLogs sizes cache0 file filter).emitted live


/-! ## Canonical specifications used by the theorems -/

/-- The strict matches of a list of lines, in order. -/
def strictMatches (f : LogFilter) (lines : List CStr) : List LogEntry :=
  lines.filterMap fun l =>
    match parseLogLineStrict l with
    | some e => if filterLog e f then some e else none
    | none => none

/-- Truncation by an optional limit. -/
def takeLimit (limit : Option Nat) (l : List LogEntry) : List LogEntry :=
  match limit with
  | none => l
  | some k => l.take k

/-- Pairwise chronological order of two lines (vacuous unless both are
strict). -/
def monoRelB (a b : CStr) : Bool :=
  match strictTime a, strictTime b with
  | some ta, some tb => decide (ta ≤ tb)
  | _, _ => true

/-- Strict records are chronologically non-decreasing along the lines. -/
def MonotoneLines (lines : List CStr) : Prop :=
  List.Pairwise (fun a b => monoRelB a b = true) lines

instance decMonotoneLines (lines : List CStr) : Decidable (MonotoneLines lines) :=
  inferInstanceAs (Decidable (List.Pairwise _ lines))

/-- The bulk reader's canonical output: permissive matches over all
lines of the file. -/
def bulkMatches (f : LogFilter) (nowStr : CStr) (file : CStr) : List LogEntry :=
  collectLines f nowStr (splitNl file)

/-- Lines of a string paired with the offset at which each line starts. -/
def withPos : Nat → List CStr → List (Nat × CStr)
  | _, [] => []
  | p, l :: rest => (p, l) :: withPos (p + l.length + 1) rest

def linesWithPos (file : CStr) : List (Nat × CStr) := withPos 0 (splitNl file)

/-- The line at this position is strict with instant `≥ target`. -/
def qualifiesAt (target : Int) (pl : Nat × CStr) : Bool :=
  match strictTime pl.2 with
  | some t => decide (target ≤ t)
  | none => false

/-- The first line start holding a strict record with instant `≥ target`. -/
def firstQual (file : CStr) (target : Int) : Option (Nat × CStr) :=
  (linesWithPos file).find? (qualifiesAt target)

/-- Claim C1's locator contract: `findOffsetForDate` returns the first
qualifying line start, or the empty-line sentinel when none exists. -/
def LocatorCorrect (file : CStr) (target : Int) : Prop :=
  match firstQual file target with
  | some (o, l) => findOffsetForDate file target file.length = (o, l)
  | none => (findOffsetForDate file target file.length).2 = []

/-! ## Concrete fixtures for witnesses and counterexamples -/

/-- `{"level":"info","time":"2025-12-14T08:00:00Z","msg":"a"}` (56 chars). -/
def recA : CStr := codes "\x7b\"level\":\"info\",\"time\":\"2025-12-14T08:00:00Z\",\"msg\":\"a\"\x7d"

/-- `{"level":"info","time":"2025-12-14T10:00:00Z","msg":"b"}` (56 chars). -/
def recB : CStr := codes "\x7b\"level\":\"info\",\"time\":\"2025-12-14T10:00:00Z\",\"msg\":\"b\"\x7d"

def entryA : LogEntry :=
  ⟨some (codes "info"), some (codes "2025-12-14T08:00:00Z"), none, some (codes "a")⟩

def entryB : LogEntry :=
  ⟨some (codes "info"), some (codes "2025-12-14T10:00:00Z"), none, some (codes "b")⟩

def t0800 : Int := msOfCivil 2025 12 14 8 0 0 0 0
def t0900 : Int := msOfCivil 2025 12 14 9 0 0 0 0

/-- Two records in chronological order, newline-terminated (114 chars). -/
def fileAB : CStr := recA ++ nlC :: recB ++ [nlC]

/-- The same two records out of order (for the early-exit behaviour). -/
def fileBA : CStr := recB ++ nlC :: recA ++ [nlC]

/-- A single old record (for the today-defaulting behaviour). -/
def fileOld : CStr := recA ++ [nlC]

/-- A 63-character strict record dated 2026 (the C1 counterexample's
first line). -/
def lineA : CStr :=
  codes "\x7b\"time\":\"2026-01-01T00:00:00Z\",\"level\":\"info\",\"msg\":\"xxxxxxxx\"\x7d"

/-- One 256-character noise line: 255 `x`s and a newline. -/
def noiseB : CStr := List.replicate 255 120 ++ [nlC]

/-- 255 `x`s: the noise line without its newline. -/
def noiseX : CStr := List.replicate 255 120

/-- `k` noise lines in a row (`256 * k` characters). -/
def noiseFl (k : Nat) : CStr := (List.replicate k noiseB).flatten

/-- The C1 counterexample file: one qualifying record at offset 0
followed by 64 KiB of non-JSON noise (65600 characters in total). -/
def cexFile : CStr := lineA ++ nlC :: noiseFl 256

/-- The C1 counterexample target: 2025-01-01, before the 2026 record. -/
def cexTarget : Int := msOfCivil 2025 1 1 0 0 0 0 0

/-- The record of `lineA`, as parsed. -/
def entryLineA : LogEntry :=
  ⟨some (codes "info"), some (codes "2026-01-01T00:00:00Z"), none,
    some (codes "xxxxxxxx")⟩

/-- A non-JSON region exactly as large as the confirmation scan window:
256 KiB of `x`s. -/
def xgap : CStr := List.replicate 262144 120

/-- The C2 file: the 256 KiB non-JSON region, a newline, then one
strict record dated 2026 (262208 characters; the record starts at
offset 262145, just past the scan window). -/
def gapFile : CStr := xgap ++ nlC :: lineA


/-- A wall-clock string on 2026-02-03 (a day containing none of the
fixture records). -/
def nowStr26 : CStr := codes "2026-02-03T04:05:06.000Z"

/-- A filter with only `to = 2025-12-14T09:00:00Z` (no limit). -/
def filterTo9 : LogFilter := ⟨none, some t0900, none, none, none, none⟩

/-- A filter with only `from = 2025-12-14T08:00:00Z`. -/
def filterFrom8 : LogFilter := ⟨some t0800, none, none, none, none, none⟩

/-- A cache entry pointing at `fileAB`'s second line. -/
def cacheC3 : OffsetCache := ⟨t0800, 57, recB, 114⟩

/-- A filter with only `from = 2025-12-14T08:30:00Z` (half an hour past
`cacheC3.fromTimestamp`, so the cache validates for it). -/
def filterFrom830 : LogFilter :=
  ⟨some (t0800 + 1800000), none, none, none, none, none⟩

/-- A filter with both bounds set: `from = 08:00`, `to = 09:00`. -/
def filterC5 : LogFilter := ⟨some t0800, some t0900, none, none, none, none⟩


/-- The remaining match budget of an optional limit. -/
def remLimit : Option Nat → Nat → Option Nat
  | none, _ => none
  | some k, c => some (k - c)


/-! # Theorems

Basic lemmas about the embedded primitives. -/

theorem splitNl_ne_nil (s : CStr) : splitNl s ≠ [] := by
  cases s with
  | nil => simp [splitNl]
  | cons c rest =>
    simp only [splitNl]
    split <;> simp


theorem splitNl_no_nl (s : CStr) (h : nlC ∉ s) : splitNl s = [s] := by
  induction s with
  | nil => rfl
  | cons c rest ih =>
    simp only [List.mem_cons, not_or] at h
    have hc : ¬ (c = nlC) := fun hcc => h.1 hcc.symm
    simp [splitNl, hc, ih h.2]


theorem splitNl_cons_line (a s : CStr) (h : nlC ∉ a) :
    splitNl (a ++ nlC :: s) = a :: splitNl s := by
  induction a with
  | nil => simp [splitNl]
  | cons c rest ih =>
    simp only [List.mem_cons, not_or] at h
    have hc : ¬ (c = nlC) := fun hcc => h.1 hcc.symm
    show splitNl (c :: (rest ++ nlC :: s)) = (c :: rest) :: splitNl s
    simp only [splitNl, if_neg hc, ih h.2]
    rfl


theorem parseLogLineStrict_time (line : CStr) (e : LogEntry)
    (h : parseLogLineStrict line = some e) :
    ∃ t ms, e.time = some t ∧ parseLogDate t = some ms := by
  unfold parseLogLineStrict at h
  split at h
  · exact absurd h (by simp)
  split at h
  case _ ps hps =>
    split at h
    · exact absurd h (by simp)
    case _ t ht =>
      split at h
      · exact absurd h (by simp)
      split at h
      case _ ms hms =>
        obtain rfl : entryOfPairs ps = e := by simpa using h
        exact ⟨t, ms, ht, hms⟩
      · exact absurd h (by simp)
  · exact absurd h (by simp)



/-! ## C6: the filter evaluator -/

set_option maxHeartbeats 1600000 in
/-- **C6.** The filter evaluator accepts a record exactly when: its level
is a member of the level set whenever that set is non-empty; its module
is present (and truthy) and a member of the module set whenever that set
is non-empty; and its time satisfies the inclusive bounds — a record
whose time equals `from` or `to` exactly is accepted (the bounds below
are `≤`), and a record whose time fails to parse is rejected when any
time bound is set and accepted otherwise. -/
theorem C6_filterLog_spec (e : LogEntry) (f : LogFilter) :
    filterLog e f = true ↔
      ((∀ ls, f.level = some ls → ls ≠ [] → ∃ l, e.level = some l ∧ l ∈ ls) ∧
       (∀ ms, f.module = some ms → ms ≠ [] →
         ∃ m, e.module = some m ∧ m ≠ [] ∧ m ∈ ms) ∧
       ((f.fromT ≠ none ∨ f.toT ≠ none) →
         ∃ t, parseLogDateOpt e.time = some t ∧
           (∀ lo, f.fromT = some lo → lo ≤ t) ∧
           (∀ hi, f.toT = some hi → t ≤ hi))) := by
  rcases f with ⟨ff, ft, fl, fm, flim, foff⟩
  rcases hpd : parseLogDateOpt e.time with _ | t <;>
  rcases hel : e.level with _ | l <;>
  rcases hem : e.module with _ | m <;>
  rcases fl with _ | ls <;>
  rcases fm with _ | ms <;>
  rcases ff with _ | lo <;>
  rcases ft with _ | hi <;>
    simp [filterLog, hpd, hel, hem, List.length_pos, not_lt, and_assoc] <;>
    tauto

/-! ## Shared lemmas about the filter evaluator -/

theorem filterLog_bounds (e : LogEntry) (f : LogFilter) (lo hi : Int)
    (hf : f.fromT = some lo) (ht : f.toT = some hi)
    (h : filterLog e f = true) :
    ∃ t, parseLogDateOpt e.time = some t ∧ lo ≤ t ∧ t ≤ hi := by
  unfold filterLog at h
  simp only [Bool.and_eq_true] at h
  have h3 := h.2
  rw [hf, ht] at h3
  simp only [Option.isSome_some, Bool.or_self, if_true] at h3
  cases hpd : parseLogDateOpt e.time with
  | none => rw [hpd] at h3; simp at h3
  | some t =>
    rw [hpd] at h3
    simp only [Bool.and_eq_true, decide_eq_true_eq, not_lt] at h3
    exact ⟨t, rfl, h3.1, h3.2⟩

theorem filterLog_from_bound (e : LogEntry) (f : LogFilter) (lo : Int)
    (hf : f.fromT = some lo) (h : filterLog e f = true) :
    ∃ t, parseLogDateOpt e.time = some t ∧ lo ≤ t := by
  unfold filterLog at h
  simp only [Bool.and_eq_true] at h
  have h3 := h.2
  rw [hf] at h3
  simp only [Option.isSome_some, Bool.true_or, if_true] at h3
  cases hpd : parseLogDateOpt e.time with
  | none => rw [hpd] at h3; simp at h3
  | some t =>
    rw [hpd] at h3
    simp only [Bool.and_eq_true, decide_eq_true_eq, not_lt] at h3
    exact ⟨t, rfl, h3.1⟩

theorem filterLog_to_false (e : LogEntry) (f : LogFilter) (hi t : Int)
    (ht : f.toT = some hi) (hpd : parseLogDateOpt e.time = some t)
    (hgt : hi < t) : filterLog e f = false := by
  unfold filterLog
  have hcond : (f.fromT.isSome || f.toT.isSome) = true := by
    rw [ht]; simp
  rw [hcond, if_pos rfl, hpd, ht]
  simp [not_lt, hgt]

/-! ## C4: tailer rotation handling -/

set_option maxRecDepth 8000 in
/-- **C4, counterexample.**  A change event observing
`current_size < last_size` (here 57 < 100) does *not* reset
`last_size` to 0: `readNewContent` has no shrink branch, leaves the
state untouched and delivers nothing — so after a truncation followed
by a single appended record (`recA`, a record matching the unbounded
filter), the subscriber receives `[]` rather than exactly that record. -/
theorem C4_cex :
    fileOld.length < 100 ∧
    readNewContent LogFilter.empty [] ⟨100, []⟩ fileOld = (⟨100, []⟩, []) ∧
    (readNewContent LogFilter.empty [] ⟨100, []⟩ fileOld).1.lastSize ≠ 0 ∧
    parseLogLine [] recA = some entryA ∧
    filterLog entryA LogFilter.empty = true := by
  refine ⟨by decide, by decide, by decide, by decide, by decide⟩

/-- **C4, amended.**  When a change event observes a file size that does
not exceed `last_size` (in particular after any truncation), the tailer
does nothing: the state (both `last_size` and the carry buffer) is left
unchanged and no record is delivered.  No pre-rotation record is
re-delivered as new — but neither is anything else, so a subscriber sees
a newly appended record only once the file has grown past the
pre-rotation size again; the reset to `last_size = 0` described by the
claim does not exist in the code. -/
theorem C4_amended (filter : LogFilter) (nowStr : CStr) (st : TailState)
    (file : CStr) (h : file.length ≤ st.lastSize) :
    readNewContent filter nowStr st file = (st, []) := by
  unfold readNewContent
  rw [if_neg (by omega)]

set_option maxRecDepth 8000 in
/-- Witness for `C4_amended` at a concrete truncated file. -/
theorem C4_amended_witness :
    fileOld.length ≤ 100 ∧
    readNewContent LogFilter.empty [] ⟨100, []⟩ fileOld = (⟨100, []⟩, []) :=
  ⟨by decide, C4_amended LogFilter.empty [] ⟨100, []⟩ fileOld (by decide)⟩

/-! ## C9: the authentication gate -/

/-- **C9, counterexample.**  Not every HTTP operation returns 401 on a
missing or wrong `pwd`: the root HTML operation runs through the same
`checkAuth` (which does report 401 here) but answers with the login page
at status 200 and never returns the 401 response.  (The equality check
itself is JavaScript `!==` on strings — its timing behaviour is outside
this model.) -/
theorem C9_cex :
    checkAuth "secret" none = some 401 ∧
    rootRoute "secret" none = ⟨200, false⟩ ∧
    (200 : Nat) ≠ 401 := by
  refine ⟨by decide, by decide, by decide⟩

/-- **C9, amended.**  The three API operations gate on an equality check
of the `pwd` query parameter against the process-wide secret and run
their handler body only when they are equal: 500 when the secret is
unconfigured, 401 when `pwd` is missing or differs, the handler
otherwise; the root HTML operation instead serves the login page with
status 200 on any auth failure.  (The source compares with plain `!==`;
whether that comparison is constant-time is a timing property not
expressible in this embedding.) -/
theorem C9_amended (password : String) (pwd : Option String)
    (handlerStatus : Nat) :
    apiRoute password pwd handlerStatus =
      (if password = "" then ⟨500, false⟩
       else if pwd ≠ some password then ⟨401, false⟩
       else ⟨handlerStatus, true⟩) ∧
    rootRoute password pwd =
      ⟨200, decide (¬ password = "" ∧ pwd = some password)⟩ := by
  unfold apiRoute rootRoute checkAuth
  by_cases h1 : password = "" <;> by_cases h2 : pwd = some password <;>
    simp [h1, h2]

/-! ## C8: the live-stream endpoint -/

theorem sse_foldl (l : List LogEntry) (acc : List SseEvent) (n : Nat) :
    l.foldl (fun (p : List SseEvent × Nat) e => (p.1 ++ [SseEvent.data e], p.2 + 1))
        (acc, n) =
      (acc ++ l.map SseEvent.data, n + l.length) := by
  induction l generalizing acc n with
  | nil => simp
  | cons x xs ih => simp [List.foldl_cons, ih]; omega

/-- **C8.**  After the historical records are delivered, the stream
carries exactly one `historical-end` event, whose numeric payload equals
the number of historical records delivered; the tailer subscription is
attached only when `limit` is absent, and when `limit` is set the stream
holds nothing after the sentinel (it is closed immediately). -/
theorem C8_stream_shape (sizes : List Nat) (cache0 : Option OffsetCache)
    (file : CStr) (filter : LogFilter) (live : List LogEntry) :
    (apiLogsStreamEvents sizes cache0 file filter live =
      (streamLogs sizes cache0 file filter).emitted.map SseEvent.data ++
        SseEvent.historicalEnd (streamLogs sizes cache0 file filter).emitted.length ::
        (match filter.limit with
         | none => live.map SseEvent.data
         | some _ => [])) ∧
    ((apiLogsStreamEvents sizes cache0 file filter live).filter SseEvent.isEnd =
      [SseEvent.historicalEnd (streamLogs sizes cache0 file filter).emitted.length]) ∧
    (filter.limit ≠ none →
      apiLogsStreamEvents sizes cache0 file filter live =
        (streamLogs sizes cache0 file filter).emitted.map SseEvent.data ++
          [SseEvent.historicalEnd (streamLogs sizes cache0 file filter).emitted.length]) := by
  have hshape : apiLogsStreamEvents sizes cache0 file filter live =
      (streamLogs sizes cache0 file filter).emitted.map SseEvent.data ++
        SseEvent.historicalEnd (streamLogs sizes cache0 file filter).emitted.length ::
        (match filter.limit with
         | none => live.map SseEvent.data
         | some _ => []) := by
    unfold apiLogsStreamEvents sseStart
    rw [show (([], 0) : List SseEvent × Nat) = (([] : List SseEvent), (0 : Nat)) from rfl,
      sse_foldl]
    simp
  refine ⟨hshape, ?_, ?_⟩
  · rw [hshape]
    rw [List.filter_append]
    have h1 : ∀ l : List LogEntry,
        (l.map SseEvent.data).filter SseEvent.isEnd = [] := by
      intro l
      rw [List.filter_eq_nil_iff]
      intro a ha
      obtain ⟨e, _, rfl⟩ := List.mem_map.mp ha
      simp [SseEvent.isEnd]
    rw [h1]
    cases hlim : filter.limit with
    | none => simp [List.filter_cons, SseEvent.isEnd, h1]
    | some k => simp [List.filter_cons, SseEvent.isEnd]
  · intro hlim
    rw [hshape]
    cases hl : filter.limit with
    | none => exact absurd hl hlim
    | some k => rfl

set_option maxRecDepth 8000 in
/-- Witness for `C8_stream_shape`: with `limit = 1` on a two-record
file, the stream is one data event, then `historical-end 1`, then
nothing. -/
theorem C8_stream_shape_witness :
    apiLogsStreamEvents [] none fileAB ⟨none, none, none, none, some 1, none⟩ [entryB] =
      [SseEvent.data entryA, SseEvent.historicalEnd 1] := by
  have h := (C8_stream_shape [] none fileAB
    ⟨none, none, none, none, some 1, none⟩ [entryB]).2.2 (by simp)
  rw [h]
  decide

/-! ## Chunk reassembly: the carry buffer rebuilds the file's lines -/

theorem splitNl_mem_no_nl (s : CStr) : ∀ l ∈ splitNl s, nlC ∉ l := by
  induction s with
  | nil => intro l hl; simp [splitNl] at hl; simp [hl]
  | cons c rest ih =>
    intro l hl
    simp only [splitNl] at hl
    by_cases hc : c = nlC
    · rw [if_pos hc] at hl
      rcases List.mem_cons.mp hl with rfl | hl2
      · simp
      · exact ih l hl2
    · rw [if_neg hc] at hl
      rcases List.mem_cons.mp hl with rfl | hl2
      · intro hmem
        rcases List.mem_cons.mp hmem with rfl | hmem2
        · exact hc rfl
        · have hhead : (splitNl rest).headD [] ∈ splitNl rest := by
            cases hsp : splitNl rest with
            | nil => exact absurd hsp (splitNl_ne_nil rest)
            | cons x xs => simp
          exact ih _ hhead hmem2
      · have : l ∈ splitNl rest := by
          cases hsp : splitNl rest with
          | nil => exact absurd hsp (splitNl_ne_nil rest)
          | cons x xs =>
            simp only [hsp, List.tail_cons] at hl2
            exact List.mem_cons_of_mem x hl2
        exact ih l this

theorem splitNl_append (a b : CStr) :
    splitNl (a ++ b) =
      (splitNl a).dropLast ++ splitNl ((splitNl a).getLastD [] ++ b) := by
  induction a with
  | nil => simp [splitNl]
  | cons c rest ih =>
    by_cases hc : c = nlC
    · subst hc
      show splitNl (nlC :: (rest ++ b)) = _
      simp only [splitNl, if_pos rfl]
      rw [ih]
      cases hsp : splitNl rest with
      | nil => exact absurd hsp (splitNl_ne_nil rest)
      | cons x xs => simp
    · show splitNl (c :: (rest ++ b)) = _
      simp only [splitNl, if_neg hc]
      rw [ih]
      cases hsp : splitNl rest with
      | nil => exact absurd hsp (splitNl_ne_nil rest)
      | cons x xs =>
        cases xs with
        | nil =>
          have hb := splitNl_ne_nil (x ++ b)
          cases hspb : splitNl (x ++ b) with
          | nil => exact absurd hspb hb
          | cons y ys => simp [splitNl, if_neg hc, hspb]
        | cons x2 xs2 => simp

theorem chunksOf_flatten (sizes : List Nat) (s : CStr) :
    (chunksOf sizes s).flatten = s := by
  induction sizes generalizing s with
  | nil =>
    by_cases h : s = []
    · simp [chunksOf, h]
    · simp [chunksOf, h]
  | cons n rest ih =>
    by_cases h : s = []
    · simp [chunksOf, h]
    · simp [chunksOf, h, ih]

theorem collectLines_append (f : LogFilter) (nowStr : CStr)
    (l1 l2 : List CStr) :
    collectLines f nowStr (l1 ++ l2) =
      collectLines f nowStr l1 ++ collectLines f nowStr l2 := by
  simp [collectLines]

theorem getLastD_app {α : Type} (u v : List α) (d : α) (hv : v ≠ []) :
    (u ++ v).getLastD d = v.getLastD d := by
  rw [List.getLastD_eq_getLast? d (u ++ v), List.getLastD_eq_getLast? d v,
    List.getLast?_append_of_ne_nil u hv]

theorem dropLast_app {α : Type} (u v : List α) (hv : v ≠ []) :
    (u ++ v).dropLast = u ++ v.dropLast := by
  induction u with
  | nil => rfl
  | cons a u ih =>
    cases hu : u ++ v with
    | nil => exact absurd (List.append_eq_nil.mp hu).2 hv
    | cons x xs =>
      show ((a :: (u ++ v)).dropLast) = (a :: u) ++ v.dropLast
      rw [hu, List.dropLast_cons₂, ← hu, ih]
      rfl

theorem getLastD_mem {α : Type} (l : List α) (d : α) (h : l ≠ []) :
    l.getLastD d ∈ l := by
  rw [List.getLastD_eq_getLast? d l]
  cases hl : l.getLast? with
  | none => exact absurd (List.getLast?_eq_none_iff.mp hl) h
  | some a => simpa using List.mem_of_mem_getLast? hl

theorem collectChunks_eq (f : LogFilter) (nowStr : CStr) :
    ∀ (chunks : List CStr) (buffer : CStr) (acc : List LogEntry),
    nlC ∉ buffer →
    collectChunks f nowStr chunks buffer acc =
      ((splitNl (buffer ++ chunks.flatten)).getLastD [],
       acc ++ collectLines f nowStr (splitNl (buffer ++ chunks.flatten)).dropLast) := by
  intro chunks
  induction chunks with
  | nil =>
    intro buffer acc hb
    simp [collectChunks, splitNl_no_nl buffer hb, collectLines]
  | cons c rest ih =>
    intro buffer acc hb
    show collectChunks f nowStr (c :: rest) buffer acc = _
    simp only [collectChunks]
    rw [ih _ _ (splitNl_mem_no_nl (buffer ++ c) _
      (getLastD_mem _ _ (splitNl_ne_nil (buffer ++ c))))]
    have hdecomp : splitNl (buffer ++ (c :: rest).flatten) =
        (splitNl (buffer ++ c)).dropLast ++
          splitNl ((splitNl (buffer ++ c)).getLastD [] ++ rest.flatten) := by
      rw [List.flatten_cons,
        show buffer ++ (c ++ rest.flatten) = (buffer ++ c) ++ rest.flatten by
          simp [List.append_assoc],
        splitNl_append]
    rw [hdecomp]
    have hne := splitNl_ne_nil ((splitNl (buffer ++ c)).getLastD [] ++ rest.flatten)
    rw [getLastD_app _ _ _ hne, dropLast_app _ _ hne, collectLines_append,
      List.append_assoc]

theorem dropLast_append_getLastD {α : Type} (l : List α) (d : α)
    (h : l ≠ []) : l.dropLast ++ [l.getLastD d] = l := by
  induction l with
  | nil => exact absurd rfl h
  | cons a t ih =>
    cases t with
    | nil => rfl
    | cons b t2 =>
      show (a :: (b :: t2).dropLast) ++ [(b :: t2).getLastD a] = a :: b :: t2
      have hd : (b :: t2).getLastD a = (b :: t2).getLastD d := by
        rw [List.getLastD_eq_getLast? a (b :: t2),
          List.getLastD_eq_getLast? d (b :: t2)]
        cases hl : (b :: t2).getLast? with
        | none => exact absurd (List.getLast?_eq_none_iff.mp hl) (by simp)
        | some x => rfl
      rw [hd, List.cons_append, ih (by simp)]

theorem collectLines_singleton (f : LogFilter) (nowStr : CStr) (l : CStr) :
    collectLines f nowStr [l] =
      (match parseLogLine nowStr l with
       | some e => if filterLog e f then [e] else []
       | none => []) := by
  simp only [collectLines, List.filterMap]
  cases parseLogLine nowStr l with
  | none => rfl
  | some e =>
    by_cases hf : filterLog e f <;> simp [hf]

theorem parseLogLine_blank (nowStr l : CStr) (h : isBlank l = true) :
    parseLogLine nowStr l = none := by
  simp [parseLogLine, h]

/-- The bulk collection is chunking-invariant: whatever the stream's
chunk decomposition, `readLogs` collects exactly the permissive matches
of the file's lines, in file order. -/
theorem bulkCollect_eq (f : LogFilter) (nowStr : CStr) (sizes : List Nat)
    (file : CStr) :
    bulkCollect f nowStr sizes file = collectLines f nowStr (splitNl file) := by
  unfold bulkCollect
  rw [collectChunks_eq f nowStr _ _ _ (by simp)]
  simp only [List.nil_append, chunksOf_flatten]
  have hsplit : (splitNl file).dropLast ++ [(splitNl file).getLastD []] =
    splitNl file := dropLast_append_getLastD _ _ (splitNl_ne_nil file)
  conv_rhs => rw [← hsplit]
  rw [collectLines_append, collectLines_singleton]
  by_cases hb : isBlank ((splitNl file).getLastD []) = true
  · rw [parseLogLine_blank _ _ hb]
    simp [hb]
  · simp only [hb, not_false_eq_true, if_true]
    cases hp : parseLogLine nowStr ((splitNl file).getLastD []) with
    | none => simp
    | some e => by_cases hf : filterLog e f <;> simp [hf]

/-- `readLogs`, characterized: the logs are the permissive matches of
the file's lines with `offset` dropped and `limit` applied (all of them
after `offset` when `limit` is absent), `total` is the number of
matches. -/
theorem readLogs_eq (sizes : List Nat) (nowStr : CStr) (y m d : Nat)
    (file : CStr) (filter : LogFilter) :
    readLogs sizes nowStr y m d file filter =
      ⟨(match filter.limit with
        | some k =>
          ((bulkMatches (effectiveFilter y m d filter) nowStr file).drop
            (filter.offset.getD 0)).take k
        | none =>
          (bulkMatches (effectiveFilter y m d filter) nowStr file).drop
            (filter.offset.getD 0)),
       (match filter.limit with
        | some k => decide (filter.offset.getD 0 + k <
          (bulkMatches (effectiveFilter y m d filter) nowStr file).length)
        | none => false),
       (bulkMatches (effectiveFilter y m d filter) nowStr file).length⟩ := by
  unfold readLogs bulkMatches
  simp only [bulkCollect_eq]
  rfl

theorem collectLines_mem (f : LogFilter) (nowStr : CStr)
    (lines : List CStr) (e : LogEntry)
    (h : e ∈ collectLines f nowStr lines) : filterLog e f = true := by
  obtain ⟨l, _, hl⟩ := List.mem_filterMap.mp h
  revert hl
  cases hp : parseLogLine nowStr l with
  | none => simp
  | some e2 =>
    by_cases hf : filterLog e2 f = true
    · simp only [hf, if_true, Option.some.injEq]
      rintro rfl
      exact hf
    · simp [hf]

/-! ## C10: bulk reads default to the current day -/

/-- **C10.**  When `readLogs` is called with neither a `from` nor a `to`
bound, it substitutes `from = start of the current local calendar day`
and `to = end of that day`, so every record it returns carries a time
that parses into that day's inclusive range — requests without time
bounds return only records filtered to today, never the whole file. -/
theorem C10_readLogs_today (sizes : List Nat) (nowStr : CStr)
    (y m d : Nat) (file : CStr) (filter : LogFilter)
    (hf : filter.fromT = none) (ht : filter.toT = none) :
    (effectiveFilter y m d filter).fromT = some (getTodayStart y m d) ∧
    (effectiveFilter y m d filter).toT = some (getTodayEnd y m d) ∧
    ∀ e ∈ (readLogs sizes nowStr y m d file filter).logs,
      ∃ t, parseLogDateOpt e.time = some t ∧
        getTodayStart y m d ≤ t ∧ t ≤ getTodayEnd y m d := by
  refine ⟨by simp [effectiveFilter, hf], by simp [effectiveFilter, ht], ?_⟩
  intro e he
  rw [readLogs_eq] at he
  simp only at he
  have hmem : e ∈ bulkMatches (effectiveFilter y m d filter) nowStr file := by
    cases hlim : filter.limit with
    | none =>
      rw [hlim] at he
      exact List.mem_of_mem_drop he
    | some k =>
      rw [hlim] at he
      exact List.mem_of_mem_drop (List.mem_of_mem_take he)
  have hfl : filterLog e (effectiveFilter y m d filter) = true :=
    collectLines_mem _ _ _ _ hmem
  exact filterLog_bounds e _ _ _ (by simp [effectiveFilter, hf])
    (by simp [effectiveFilter, ht]) hfl

/-- Witness for `C10_readLogs_today` at a concrete unbounded request. -/
theorem C10_readLogs_today_witness :
    LogFilter.empty.fromT = none ∧ LogFilter.empty.toT = none ∧
    ((effectiveFilter 2025 12 14 LogFilter.empty).fromT =
        some (getTodayStart 2025 12 14) ∧
     (effectiveFilter 2025 12 14 LogFilter.empty).toT =
        some (getTodayEnd 2025 12 14) ∧
     ∀ e ∈ (readLogs [] nowStr26 2025 12 14 fileAB LogFilter.empty).logs,
       ∃ t, parseLogDateOpt e.time = some t ∧
         getTodayStart 2025 12 14 ≤ t ∧ t ≤ getTodayEnd 2025 12 14) :=
  ⟨rfl, rfl,
   C10_readLogs_today [] nowStr26 2025 12 14 fileAB LogFilter.empty rfl rfl⟩

/-! ## C5: bulk output versus the live stream's historical prefix -/

set_option maxRecDepth 8000 in
/-- **C5, counterexample.**  For the empty filter (no bounds at all) on
a one-record file dated 2025-12-14, with the clock on 2026-02-03: the
bulk endpoint defaults the missing bounds to the current day and returns
nothing, while `streamLogs` applies no default and emits the record, so
the live stream's historical prefix is `[data recA]`.  The two surfaces
disagree in both content and length. -/
theorem C5_cex :
    (readLogs [] nowStr26 2026 2 3 fileOld LogFilter.empty).logs = [] ∧
    (streamLogs [] none fileOld LogFilter.empty).emitted = [entryA] ∧
    (apiLogsStreamEvents [] none fileOld LogFilter.empty []).takeWhile
        (fun ev => ¬ ev.isEnd) = [SseEvent.data entryA] ∧
    (readLogs [] nowStr26 2026 2 3 fileOld LogFilter.empty).logs ≠
      (streamLogs [] none fileOld LogFilter.empty).emitted := by
  refine ⟨by decide, by decide, by decide, by decide⟩

/-! ## C7: absent limit (counterexample half) -/

set_option maxRecDepth 8000 in
/-- **C7, counterexample.**  With `limit` absent and `to` set, the
streaming reader does *not* emit every matching record: on a file whose
first line is dated past `to` and whose second line matches, the early
exit on the first line discards the rest of the chunk, so nothing is
emitted even though `recA` is a complete line, is strict, and matches
the filter (the bulk reader, which has no early exit, does return it). -/
theorem C7_cex :
    filterTo9.limit = none ∧
    readerEmit filterTo9 [] fileBA = [] ∧
    splitNl fileBA = [recB, recA, []] ∧
    parseLogLineStrict recA = some entryA ∧
    filterLog entryA filterTo9 = true ∧
    (readLogs [] nowStr26 2025 12 14 fileBA filterTo9).logs = [entryA] := by
  refine ⟨by decide, by decide, by decide, by decide, by decide, by decide⟩

/-! ## C3: a validated cache hit can still miss matches -/

set_option maxRecDepth 8000 in
/-- **C3, counterexample.**  A cache entry for `from = 08:00` pointing
at `fileAB`'s second line passes every validation step (size check,
one-hour window with zero drift, and the re-read line equals the stored
validation line), yet seeding the reader at the cached offset emits only
the second record, while the same filter from offset 0 emits both: the
first record also has time `≥ 08:00`, sits before the cached offset, and
is lost. -/
theorem C3_cex :
    cacheC3.fileSize ≤ fileAB.length ∧
    isCacheValidForDate cacheC3 t0800 = true ∧
    (splitNl (sliceCS fileAB cacheC3.byteOffset
      (cacheC3.byteOffset + cacheC3.validationLine.length + 100))).headD [] =
      cacheC3.validationLine ∧
    (streamLogs [] (some cacheC3) fileAB filterFrom8).startOffset = 57 ∧
    (streamLogs [] (some cacheC3) fileAB filterFrom8).emitted = [entryB] ∧
    readerEmit filterFrom8 [] fileAB = [entryA, entryB] ∧
    (streamLogs [] (some cacheC3) fileAB filterFrom8).emitted ≠
      readerEmit filterFrom8 [] fileAB := by
  refine ⟨by decide, by decide, by decide, by decide, by decide, by decide,
    by decide⟩

/-! ## The reader is chunking-invariant on monotone files -/

theorem strictTime_of_parse (l : CStr) (e : LogEntry)
    (h : parseLogLineStrict l = some e) :
    strictTime l = parseLogDateOpt e.time := by
  simp [strictTime, h]

theorem monoRelB_le {a b : CStr} {ta tb : Int} (h : monoRelB a b = true)
    (ha : strictTime a = some ta) (hb : strictTime b = some tb) : ta ≤ tb := by
  unfold monoRelB at h
  rw [ha, hb] at h
  simpa using h

theorem strictMatches_nil_of_past_to (f : LogFilter) (hi t : Int)
    (rest : List CStr) (hto : f.toT = some hi) (hgt : hi < t)
    (hrel : ∀ l2 ∈ rest, ∀ tb, strictTime l2 = some tb → t ≤ tb) :
    strictMatches f rest = [] := by
  rw [strictMatches, List.filterMap_eq_nil_iff]
  intro l2 hl2
  cases hp : parseLogLineStrict l2 with
  | none => rfl
  | some e2 =>
    obtain ⟨t2s, t2, ht2s, ht2⟩ := parseLogLineStrict_time l2 e2 hp
    have hst : strictTime l2 = some t2 := by
      rw [strictTime_of_parse l2 e2 hp, ht2s]
      exact ht2
    have hle : t ≤ t2 := hrel l2 hl2 t2 hst
    have hpd2 : parseLogDateOpt e2.time = some t2 := by rw [ht2s]; exact ht2
    have hff : filterLog e2 f = false :=
      filterLog_to_false e2 f hi t2 hto hpd2 (by omega)
    simp [hff]

theorem strictMatches_cons (f : LogFilter) (l : CStr) (rest : List CStr) :
    strictMatches f (l :: rest) =
      (match parseLogLineStrict l with
       | some e => if filterLog e f then [e] else []
       | none => []) ++ strictMatches f rest := by
  simp only [strictMatches, List.filterMap]
  cases parseLogLineStrict l with
  | none => rfl
  | some e => by_cases hf : filterLog e f <;> simp [hf]

theorem procLines_eq (f : LogFilter) (limit : Option Nat)
    (lines : List CStr) :
    ∀ (count : Nat) (acc : List LogEntry), MonotoneLines lines →
    procLines f limit lines count acc =
      (count + (takeLimit (remLimit limit count) (strictMatches f lines)).length,
       acc ++ takeLimit (remLimit limit count) (strictMatches f lines)) := by
  induction lines with
  | nil =>
    intro count acc hm
    cases limit <;> simp [procLines, strictMatches, takeLimit, remLimit]
  | cons l rest ih =>
    intro count acc hm
    have hmtail : MonotoneLines rest := (List.pairwise_cons.mp hm).2
    have hrel := (List.pairwise_cons.mp hm).1
    show procLines f limit (l :: rest) count acc = _
    simp only [procLines]
    by_cases hlr : limitReached limit count = true
    · rw [if_pos hlr]
      cases limit with
      | none => simp [limitReached] at hlr
      | some k =>
        have hk : k ≤ count := by simpa [limitReached] using hlr
        have hz : k - count = 0 := by omega
        simp [remLimit, takeLimit, hz]
    · rw [if_neg hlr]
      split
      · -- strict parse fails: the line is skipped
        rename_i hp
        rw [ih count acc hmtail, strictMatches_cons, hp]
        rfl
      · rename_i e hp
        by_cases hf : filterLog e f = true
        · -- a match: emit and count
          rw [if_pos hf, ih (count + 1) (acc ++ [e]) hmtail,
            strictMatches_cons, hp]
          simp only [hf, if_true, List.singleton_append]
          cases limit with
          | none =>
            simp only [remLimit, takeLimit, List.length_cons, List.append_assoc,
              List.singleton_append]
            rw [Prod.mk.injEq]
            exact ⟨by omega, rfl⟩
          | some k =>
            have hck : count < k := by
              by_contra hcon
              exact hlr (by simp only [limitReached, ge_iff_le,
                decide_eq_true_eq]; omega)
            have hkc : k - count = (k - (count + 1)) + 1 := by omega
            simp only [remLimit, takeLimit, hkc, List.take_succ_cons,
              List.length_cons, List.append_assoc, List.singleton_append]
            rw [Prod.mk.injEq]
            exact ⟨by omega, rfl⟩
        · rw [if_neg hf]
          have hdrop : strictMatches f (l :: rest) = strictMatches f rest := by
            rw [strictMatches_cons, hp]
            simp [hf]
          split
          · -- f.toT = some hi
            rename_i hi hto
            split
            · rename_i t hpd
              by_cases hgt : hi < t
              · -- early exit: everything after is past `to`
                rw [if_pos hgt]
                have hnil : strictMatches f rest = [] := by
                  refine strictMatches_nil_of_past_to f hi t rest hto hgt ?_
                  intro l2 hl2 tb hst
                  exact monoRelB_le (hrel l2 hl2)
                    (by rw [strictTime_of_parse l e hp]; exact hpd) hst
                rw [hdrop, hnil]
                cases limit <;> simp [remLimit, takeLimit]
              · rw [if_neg hgt, ih count acc hmtail, hdrop]
            · rename_i hpd
              rw [ih count acc hmtail, hdrop]
          · rw [ih count acc hmtail, hdrop]

theorem takeLimit_append (limit : Option Nat) (count : Nat)
    (M1 M2 : List LogEntry) :
    takeLimit (remLimit limit count) (M1 ++ M2) =
      takeLimit (remLimit limit count) M1 ++
        takeLimit (remLimit limit
          (count + (takeLimit (remLimit limit count) M1).length)) M2 := by
  cases limit with
  | none => simp [takeLimit, remLimit]
  | some k =>
    simp only [takeLimit, remLimit, List.take_append_eq_append_take]
    congr 2
    simp only [List.length_take]
    omega

theorem strictMatches_append (f : LogFilter) (l1 l2 : List CStr) :
    strictMatches f (l1 ++ l2) = strictMatches f l1 ++ strictMatches f l2 := by
  simp [strictMatches]

theorem procChunks_eq (f : LogFilter) (limit : Option Nat) :
    ∀ (chunks : List CStr) (buffer : CStr) (count : Nat) (acc : List LogEntry),
    nlC ∉ buffer →
    MonotoneLines (splitNl (buffer ++ chunks.flatten)) →
    (procChunks f limit chunks buffer count acc).2 =
      (count + (takeLimit (remLimit limit count)
        (strictMatches f (splitNl (buffer ++ chunks.flatten)).dropLast)).length,
       acc ++ takeLimit (remLimit limit count)
        (strictMatches f (splitNl (buffer ++ chunks.flatten)).dropLast)) ∧
    (limitReached limit (procChunks f limit chunks buffer count acc).2.1 = false →
      (procChunks f limit chunks buffer count acc).1 =
        (splitNl (buffer ++ chunks.flatten)).getLastD []) := by
  intro chunks
  induction chunks with
  | nil =>
    intro buffer count acc hb hm
    simp only [procChunks, List.flatten_nil, List.append_nil,
      splitNl_no_nl buffer hb]
    constructor
    · cases limit <;> simp [takeLimit, remLimit, strictMatches]
    · intro _; rfl
  | cons c rest ih =>
    intro buffer count acc hb hm
    have hbc : nlC ∉ (splitNl (buffer ++ c)).getLastD [] :=
      splitNl_mem_no_nl _ _ (getLastD_mem _ _ (splitNl_ne_nil _))
    have hdecomp : splitNl (buffer ++ (c :: rest).flatten) =
        (splitNl (buffer ++ c)).dropLast ++
          splitNl ((splitNl (buffer ++ c)).getLastD [] ++ rest.flatten) := by
      rw [List.flatten_cons,
        show buffer ++ (c ++ rest.flatten) = (buffer ++ c) ++ rest.flatten by
          simp [List.append_assoc],
        splitNl_append]
    have hBne := splitNl_ne_nil ((splitNl (buffer ++ c)).getLastD [] ++ rest.flatten)
    have hdl : (splitNl (buffer ++ (c :: rest).flatten)).dropLast =
        (splitNl (buffer ++ c)).dropLast ++
          (splitNl ((splitNl (buffer ++ c)).getLastD [] ++ rest.flatten)).dropLast := by
      rw [hdecomp, dropLast_app _ _ hBne]
    have hgl : (splitNl (buffer ++ (c :: rest).flatten)).getLastD [] =
        (splitNl ((splitNl (buffer ++ c)).getLastD [] ++ rest.flatten)).getLastD [] := by
      rw [hdecomp, getLastD_app _ _ _ hBne]
    have hm2 : MonotoneLines ((splitNl (buffer ++ c)).dropLast ++
        splitNl ((splitNl (buffer ++ c)).getLastD [] ++ rest.flatten)) := by
      rw [← hdecomp]; exact hm
    have hmA : MonotoneLines (splitNl (buffer ++ c)).dropLast :=
      hm2.sublist (List.sublist_append_left _ _)
    have hmB : MonotoneLines
        (splitNl ((splitNl (buffer ++ c)).getLastD [] ++ rest.flatten)) :=
      hm2.sublist (List.sublist_append_right _ _)
    have hstep : procChunks f limit (c :: rest) buffer count acc =
        (if limitReached limit (count + (takeLimit (remLimit limit count)
            (strictMatches f (splitNl (buffer ++ c)).dropLast)).length) = true
         then ((splitNl (buffer ++ c)).getLastD [],
           count + (takeLimit (remLimit limit count)
             (strictMatches f (splitNl (buffer ++ c)).dropLast)).length,
           acc ++ takeLimit (remLimit limit count)
             (strictMatches f (splitNl (buffer ++ c)).dropLast))
         else procChunks f limit rest ((splitNl (buffer ++ c)).getLastD [])
           (count + (takeLimit (remLimit limit count)
             (strictMatches f (splitNl (buffer ++ c)).dropLast)).length)
           (acc ++ takeLimit (remLimit limit count)
             (strictMatches f (splitNl (buffer ++ c)).dropLast))) := by
      simp only [procChunks]
      rw [procLines_eq f limit _ count acc hmA]
    have hEM : takeLimit (remLimit limit count)
        (strictMatches f (splitNl (buffer ++ (c :: rest).flatten)).dropLast) =
        takeLimit (remLimit limit count)
          (strictMatches f (splitNl (buffer ++ c)).dropLast) ++
        takeLimit (remLimit limit (count + (takeLimit (remLimit limit count)
            (strictMatches f (splitNl (buffer ++ c)).dropLast)).length))
          (strictMatches f
            (splitNl ((splitNl (buffer ++ c)).getLastD [] ++ rest.flatten)).dropLast) := by
      rw [hdl, strictMatches_append, takeLimit_append]
    rw [hstep, hEM]
    by_cases hstop : limitReached limit (count + (takeLimit (remLimit limit count)
        (strictMatches f (splitNl (buffer ++ c)).dropLast)).length) = true
    · rw [if_pos hstop]
      have h2nil : takeLimit (remLimit limit (count + (takeLimit (remLimit limit count)
          (strictMatches f (splitNl (buffer ++ c)).dropLast)).length))
          (strictMatches f
            (splitNl ((splitNl (buffer ++ c)).getLastD [] ++ rest.flatten)).dropLast)
          = [] := by
        cases hlim : limit with
        | none => rw [hlim] at hstop; simp [limitReached] at hstop
        | some k =>
          rw [hlim] at hstop
          simp only [limitReached, ge_iff_le, decide_eq_true_eq] at hstop
          simp only [takeLimit, remLimit]
          simp only [takeLimit, remLimit] at hstop
          rw [show k - (count + (List.take (k - count)
            (strictMatches f (splitNl (buffer ++ c)).dropLast)).length) = 0 by
              omega]
          rfl
      rw [h2nil]
      constructor
      · simp
      · intro hcontra
        have hred : limitReached limit (count + (takeLimit (remLimit limit count)
            (strictMatches f (splitNl (buffer ++ c)).dropLast)).length) = false :=
          hcontra
        rw [hred] at hstop
        exact absurd hstop (by simp)
    · rw [if_neg hstop]
      obtain ⟨ih1, ih2⟩ := ih ((splitNl (buffer ++ c)).getLastD [])
        (count + (takeLimit (remLimit limit count)
          (strictMatches f (splitNl (buffer ++ c)).dropLast)).length)
        (acc ++ takeLimit (remLimit limit count)
          (strictMatches f (splitNl (buffer ++ c)).dropLast))
        hbc hmB
      constructor
      · rw [ih1, Prod.mk.injEq]
        constructor
        · simp only [List.length_append]; omega
        · rw [List.append_assoc]
      · intro hfin
        rw [hgl]
        exact ih2 hfin

theorem remLimit_zero (limit : Option Nat) : remLimit limit 0 = limit := by
  cases limit <;> simp [remLimit]

theorem parseLogLineStrict_blank (l : CStr) (h : isBlank l = true) :
    parseLogLineStrict l = none := by
  simp [parseLogLineStrict, h]

theorem strictMatches_singleton (f : LogFilter) (l : CStr) :
    strictMatches f [l] =
      (match parseLogLineStrict l with
       | some e => if filterLog e f then [e] else []
       | none => []) := by
  simp only [strictMatches, List.filterMap]
  cases parseLogLineStrict l with
  | none => rfl
  | some e => by_cases hf : filterLog e f <;> simp [hf]

/-- On a chronologically monotone slice, what the reader emits does not
depend on the chunk decomposition: it is exactly the strict matches of
the slice's lines, truncated by `limit`. -/
theorem readerEmit_canonical (f : LogFilter) (sizes : List Nat)
    (slice : CStr) (hm : MonotoneLines (splitNl slice)) :
    readerEmit f sizes slice = takeLimit f.limit (strictMatches f (splitNl slice)) := by
  have hmm : MonotoneLines (splitNl ([] ++ (chunksOf sizes slice).flatten)) := by
    rw [List.nil_append, chunksOf_flatten]; exact hm
  obtain ⟨h2, hbuf⟩ := procChunks_eq f f.limit (chunksOf sizes slice) [] 0 []
    (by simp) hmm
  rw [List.nil_append, chunksOf_flatten] at h2 hbuf
  rw [remLimit_zero] at h2
  simp only [List.nil_append, Nat.zero_add] at h2
  have hLsplit : (splitNl slice).dropLast ++ [(splitNl slice).getLastD []] =
      splitNl slice := dropLast_append_getLastD _ _ (splitNl_ne_nil slice)
  have hM : strictMatches f (splitNl slice) =
      strictMatches f (splitNl slice).dropLast ++
        strictMatches f [(splitNl slice).getLastD []] := by
    rw [← strictMatches_append, hLsplit]
  simp only [readerEmit]
  rw [h2]
  by_cases hlr : limitReached f.limit
      ((takeLimit f.limit (strictMatches f (splitNl slice).dropLast)).length) = true
  · -- the limit was reached inside the chunk loop: the carry is skipped
    rw [if_neg (by rw [hlr]; simp)]
    cases hlim : f.limit with
    | none => rw [hlim] at hlr; simp [limitReached] at hlr
    | some k =>
      rw [hlim] at hlr
      simp only [limitReached, ge_iff_le, decide_eq_true_eq, takeLimit] at hlr
      rw [hM]
      simp only [takeLimit, List.take_append_eq_append_take]
      rw [show k - (strictMatches f (splitNl slice).dropLast).length = 0 by
          simp only [List.length_take] at hlr; omega,
        List.take_zero, List.append_nil]
  · -- the loop drained the chunks: the carry is the file's last line
    have hlrf : limitReached f.limit
        ((takeLimit f.limit (strictMatches f (splitNl slice).dropLast)).length) =
        false := by
      cases h : limitReached f.limit
          ((takeLimit f.limit (strictMatches f (splitNl slice).dropLast)).length) with
      | false => rfl
      | true => exact absurd h hlr
    have hproj : (procChunks f f.limit (chunksOf sizes slice) [] 0 []).2.1 =
        (takeLimit f.limit (strictMatches f (splitNl slice).dropLast)).length := by
      rw [h2]
    have hbuf2 : (procChunks f f.limit (chunksOf sizes slice) [] 0 []).1 =
        (splitNl slice).getLastD [] := hbuf (by rw [hproj, hlrf])
    rw [hbuf2]
    have hfull : takeLimit f.limit (strictMatches f (splitNl slice).dropLast) =
        strictMatches f (splitNl slice).dropLast := by
      cases hlim : f.limit with
      | none => rfl
      | some k =>
        rw [hlim] at hlrf
        simp only [limitReached, ge_iff_le, decide_eq_true_eq,
          decide_eq_false_iff_not, not_le] at hlrf
        simp only [takeLimit] at hlrf ⊢
        refine List.take_of_length_le ?_
        simp only [List.length_take] at hlrf
        omega
    have htail : takeLimit f.limit (strictMatches f (splitNl slice)) =
        strictMatches f (splitNl slice).dropLast ++
          strictMatches f [(splitNl slice).getLastD []] := by
      rw [hM]
      cases hlim : f.limit with
      | none => rfl
      | some k =>
        rw [hlim] at hlrf
        simp only [limitReached, ge_iff_le, decide_eq_true_eq,
          decide_eq_false_iff_not, not_le] at hlrf
        simp only [takeLimit] at hlrf ⊢
        have hlen : (strictMatches f (splitNl slice).dropLast).length < k := by
          simp only [List.length_take] at hlrf
          omega
        have hone : (strictMatches f [(splitNl slice).getLastD []]).length ≤ 1 := by
          rw [strictMatches_singleton]
          cases parseLogLineStrict ((splitNl slice).getLastD []) with
          | none => simp
          | some e => by_cases hf2 : filterLog e f <;> simp [hf2]
        rw [List.take_append_eq_append_take,
          List.take_of_length_le (by omega : (strictMatches f
            (splitNl slice).dropLast).length ≤ k),
          List.take_of_length_le (by omega)]
    rw [hfull, htail]
    by_cases hbl : isBlank ((splitNl slice).getLastD []) = true
    · rw [if_neg (by rw [hbl]; simp)]
      rw [strictMatches_singleton, parseLogLineStrict_blank _ hbl]
      simp
    · have hblf : isBlank ((splitNl slice).getLastD []) = false := by
        cases h : isBlank ((splitNl slice).getLastD []) with
        | false => rfl
        | true => exact absurd h hbl
      rw [if_pos (by
        rw [← hfull]
        simp only [List.getLastD_eq_getLast?] at hblf
        simp [hlrf, hblf])]
      rw [strictMatches_singleton]
      cases hp : parseLogLineStrict ((splitNl slice).getLastD []) with
      | none => simp
      | some e => by_cases hf2 : filterLog e f <;> simp [hf2]

/-! ## C7: absent limit means unlimited (amended half) -/

/-- **C7, amended.**  When the filter's `limit` is absent, reads are
uncapped: `readLogs` returns every permissive match after the requested
offset (and reports the full match count), and the streaming reader —
which `streamLogs` runs on the slice from its computed start offset —
emits every strict match of the slice it reads, provided the slice's
strict records are chronologically non-decreasing (without
monotonicity the early exit on `to` can drop later matching records, as
the counterexample shows).  No implicit cap exists in either path. -/
theorem C7_amended (sizes sizes2 : List Nat) (nowStr : CStr) (y m d : Nat)
    (file slice : CStr) (cache0 : Option OffsetCache) (filter : LogFilter)
    (hlim : filter.limit = none) (hm : MonotoneLines (splitNl slice)) :
    (readLogs sizes nowStr y m d file filter).logs =
      (bulkMatches (effectiveFilter y m d filter) nowStr file).drop
        (filter.offset.getD 0) ∧
    (readLogs sizes nowStr y m d file filter).total =
      (bulkMatches (effectiveFilter y m d filter) nowStr file).length ∧
    (streamLogs sizes2 cache0 file filter).emitted =
      readerEmit filter sizes2
        (file.drop (streamLogs sizes2 cache0 file filter).startOffset) ∧
    readerEmit filter sizes2 slice = strictMatches filter (splitNl slice) := by
  refine ⟨?_, ?_, rfl, ?_⟩
  · rw [readLogs_eq]
    simp [hlim]
  · rw [readLogs_eq]
  · rw [readerEmit_canonical filter sizes2 slice hm, hlim]
    rfl

set_option maxRecDepth 8000 in
/-- Witness for `C7_amended` on a chronological two-record file. -/
theorem C7_amended_witness :
    filterTo9.limit = none ∧ MonotoneLines (splitNl fileAB) ∧
    ((readLogs [] nowStr26 2025 12 14 fileAB filterTo9).logs =
      (bulkMatches (effectiveFilter 2025 12 14 filterTo9) nowStr26 fileAB).drop
        (filterTo9.offset.getD 0) ∧
     (readLogs [] nowStr26 2025 12 14 fileAB filterTo9).total =
      (bulkMatches (effectiveFilter 2025 12 14 filterTo9) nowStr26 fileAB).length ∧
     (streamLogs [] none fileAB filterTo9).emitted =
      readerEmit filterTo9 []
        (fileAB.drop (streamLogs [] none fileAB filterTo9).startOffset) ∧
     readerEmit filterTo9 [] fileAB = strictMatches filterTo9 (splitNl fileAB)) :=
  ⟨rfl, by decide,
   C7_amended [] [] nowStr26 2025 12 14 fileAB fileAB none filterTo9 rfl
     (by decide)⟩

/-! ## C3: the offset cache returns the same records as a full read -/

theorem filterLog_from_false (e : LogEntry) (f : LogFilter) (lo t : Int)
    (hf : f.fromT = some lo) (hpd : parseLogDateOpt e.time = some t)
    (hlt : t < lo) : filterLog e f = false := by
  unfold filterLog
  have hcond : (f.fromT.isSome || f.toT.isSome) = true := by
    rw [hf]; simp
  rw [hcond, if_pos rfl, hpd, hf]
  simp [hlt]

theorem strictMatches_nil_of_before_from (f : LogFilter) (lo : Int)
    (lines : List CStr) (hf : f.fromT = some lo)
    (h : ∀ l ∈ lines, ∀ t, strictTime l = some t → t < lo) :
    strictMatches f lines = [] := by
  rw [strictMatches, List.filterMap_eq_nil_iff]
  intro l hl
  cases hp : parseLogLineStrict l with
  | none => rfl
  | some e =>
    obtain ⟨ts, t, hts, hpd⟩ := parseLogLineStrict_time l e hp
    have hst : strictTime l = some t := by
      rw [strictTime_of_parse l e hp, hts]
      exact hpd
    have hlt : t < lo := h l hl t hst
    have hpd2 : parseLogDateOpt e.time = some t := by rw [hts]; exact hpd
    have hff : filterLog e f = false :=
      filterLog_from_false e f lo t hf hpd2 hlt
    simp [hff]

theorem splitNl_getLastD_of_end_nl (p2 : CStr) :
    (splitNl (p2 ++ [nlC])).getLastD [] = [] := by
  rw [splitNl_append p2 [nlC]]
  have hg : nlC ∉ (splitNl p2).getLastD [] :=
    splitNl_mem_no_nl p2 _ (getLastD_mem _ _ (splitNl_ne_nil p2))
  have hrw : splitNl ((splitNl p2).getLastD [] ++ [nlC]) =
      (splitNl p2).getLastD [] :: [[]] := by
    have h2 := splitNl_cons_line ((splitNl p2).getLastD []) [] hg
    simpa using h2
  rw [hrw, getLastD_app _ _ _ (by simp)]
  simp

theorem splitNl_take_drop (file : CStr) (o : Nat)
    (h : o = 0 ∨ ∃ p2, file.take o = p2 ++ [nlC]) :
    splitNl file =
      (splitNl (file.take o)).dropLast ++ splitNl (file.drop o) := by
  have hg : (splitNl (file.take o)).getLastD [] = [] := by
    rcases h with h0 | ⟨p2, hp2⟩
    · rw [h0, List.take_zero]
      simp [splitNl]
    · rw [hp2]
      exact splitNl_getLastD_of_end_nl p2
  conv_lhs => rw [← List.take_append_drop o file]
  rw [splitNl_append, hg, List.nil_append]

theorem streamLogs_cache_hit (sizes : List Nat) (c : OffsetCache)
    (file : CStr) (filter : LogFilter) (lo : Int)
    (hf : filter.fromT = some lo)
    (hsz : c.fileSize ≤ file.length)
    (hvalid : isCacheValidForDate c lo = true)
    (hline : (splitNl (sliceCS file c.byteOffset
        (c.byteOffset + c.validationLine.length + 100))).headD []
      = c.validationLine) :
    streamLogs sizes (some c) file filter =
      ⟨readerEmit filter sizes (file.drop c.byteOffset), some c,
        c.byteOffset⟩ := by
  simp only [streamLogs, hf]
  rw [if_pos (by simp [hsz, hvalid]), if_pos hline]

set_option maxHeartbeats 800000 in
/-- **C3, amended.**  A validated cache hit changes only where reading
starts, not what is returned, *when the cached offset is sound*: if the
cached offset is a line boundary, every strict record before it is
earlier than the requested `from`, and the file's strict records are
chronologically non-decreasing, then `streamLogs` with the cache
serves exactly the records of a cold read of the whole file (under any
chunking), keeps the cache slot, and starts at the cached offset.  The
code itself never checks the before-offset condition — the
counterexample shows a validated hit can drop matching records. -/
theorem C3_amended (sizes sizes2 : List Nat) (file : CStr)
    (c : OffsetCache) (filter : LogFilter) (lo : Int)
    (hf : filter.fromT = some lo)
    (hsz : c.fileSize ≤ file.length)
    (hvalid : isCacheValidForDate c lo = true)
    (hline : (splitNl (sliceCS file c.byteOffset
        (c.byteOffset + c.validationLine.length + 100))).headD []
      = c.validationLine)
    (hbound : c.byteOffset = 0 ∨
      ∃ p2, file.take c.byteOffset = p2 ++ [nlC])
    (hm : MonotoneLines (splitNl file))
    (hpre : ∀ l ∈ (splitNl (file.take c.byteOffset)).dropLast,
      ∀ t, strictTime l = some t → t < lo) :
    (streamLogs sizes (some c) file filter).startOffset = c.byteOffset ∧
    (streamLogs sizes (some c) file filter).cache = some c ∧
    (streamLogs sizes (some c) file filter).emitted =
      readerEmit filter sizes2 file := by
  have hdec : splitNl file =
      (splitNl (file.take c.byteOffset)).dropLast ++
        splitNl (file.drop c.byteOffset) :=
    splitNl_take_drop file c.byteOffset hbound
  have hmsuf : MonotoneLines (splitNl (file.drop c.byteOffset)) := by
    have hm2 := hm
    rw [hdec] at hm2
    exact List.Pairwise.sublist (List.sublist_append_right _ _) hm2
  have hEq := streamLogs_cache_hit sizes c file filter lo hf hsz hvalid hline
  rw [hEq]
  refine ⟨rfl, rfl, ?_⟩
  show readerEmit filter sizes (file.drop c.byteOffset) =
    readerEmit filter sizes2 file
  rw [readerEmit_canonical _ _ _ hmsuf, readerEmit_canonical _ _ _ hm,
    hdec, strictMatches_append,
    strictMatches_nil_of_before_from filter lo _ hf hpre, List.nil_append]

set_option maxRecDepth 8000 in
/-- Witness for `C3_amended`: the cache points at `fileAB`'s second
record, validates for `from = 08:30`, and the streamed suffix equals a
cold full-file read. -/
theorem C3_amended_witness :
    (isCacheValidForDate cacheC3 (t0800 + 1800000) = true ∧
     fileAB.take 57 = recA ++ [nlC] ∧
     MonotoneLines (splitNl fileAB)) ∧
    ((streamLogs [3] (some cacheC3) fileAB filterFrom830).startOffset =
       cacheC3.byteOffset ∧
     (streamLogs [3] (some cacheC3) fileAB filterFrom830).cache =
       some cacheC3 ∧
     (streamLogs [3] (some cacheC3) fileAB filterFrom830).emitted =
       readerEmit filterFrom830 [] fileAB) :=
  ⟨⟨by decide, by decide, by decide⟩,
   C3_amended [3] [] fileAB cacheC3 filterFrom830 (t0800 + 1800000) rfl
     (by decide) (by decide) (by decide)
     (Or.inr ⟨recA, by decide⟩) (by decide)
     (by
       have he : (splitNl (fileAB.take 57)).dropLast = [recA] := by decide
       show ∀ l ∈ (splitNl (fileAB.take 57)).dropLast, _
       rw [he]
       intro l hl t ht
       rw [List.mem_singleton] at hl
       subst hl
       have hA : strictTime recA = some t0800 := by decide
       rw [hA] at ht
       injection ht with h
       omega)⟩

/-! ## C5: the amended bulk/stream agreement -/

theorem effectiveFilter_id (y m d : Nat) (filter : LogFilter)
    (lo hi : Int) (hf : filter.fromT = some lo)
    (ht : filter.toT = some hi) :
    effectiveFilter y m d filter = filter := by
  unfold effectiveFilter
  cases filter
  simp only at hf ht
  subst hf ht
  simp

theorem parseLogLine_eq_strict (nowStr l : CStr)
    (h : isBlank l = true ∨ parseLogLineStrict l ≠ none) :
    parseLogLine nowStr l = parseLogLineStrict l := by
  by_cases hb : isBlank l = true
  · simp [parseLogLine, parseLogLineStrict, hb]
  · have hs : parseLogLineStrict l ≠ none := h.resolve_left hb
    cases hj : jsonParseObj l with
    | none =>
      exact absurd (by simp [parseLogLineStrict, hb, hj]) hs
    | some ps =>
      cases hpt : (entryOfPairs ps).time with
      | none =>
        exact absurd (by simp [parseLogLineStrict, hb, hj, hpt]) hs
      | some t =>
        by_cases htn : t = []
        · exact absurd (by simp [parseLogLineStrict, hb, hj, hpt, htn]) hs
        · cases hpd : parseLogDate t with
          | none =>
            exact absurd
              (by simp [parseLogLineStrict, hb, hj, hpt, htn, hpd]) hs
          | some ms =>
            simp [parseLogLine, parseLogLineStrict, hb, hj, hpt, htn, hpd]

theorem collectLines_eq_strict (f : LogFilter) (nowStr : CStr)
    (lines : List CStr)
    (h : ∀ l ∈ lines, isBlank l = true ∨ parseLogLineStrict l ≠ none) :
    collectLines f nowStr lines = strictMatches f lines := by
  unfold collectLines strictMatches
  apply List.filterMap_congr
  intro l hl
  rw [parseLogLine_eq_strict nowStr l (h l hl)]

theorem streamLogs_cold_small (sizes : List Nat) (file : CStr)
    (filter : LogFilter) (lo : Int) (hf : filter.fromT = some lo)
    (hsize : ¬ file.length > 1048576) :
    streamLogs sizes none file filter =
      ⟨readerEmit filter sizes file, none, 0⟩ := by
  simp only [streamLogs, hf]
  rw [if_neg hsize, List.drop_zero]

theorem takeWhile_data_events (l : List LogEntry) (n : Nat)
    (rest : List SseEvent) :
    ((l.map SseEvent.data ++ SseEvent.historicalEnd n :: rest).takeWhile
      (fun ev => ¬ ev.isEnd)) = l.map SseEvent.data := by
  induction l with
  | nil => simp [List.takeWhile_cons, SseEvent.isEnd]
  | cons x xs ih => simp [List.takeWhile_cons, SseEvent.isEnd, ih]

/-- **C5, amended.**  The bulk endpoint and the live stream's historical
prefix agree under the conditions the spec leaves implicit: both time
bounds present (so the bulk reader's today-defaults change nothing), no
offset, the file at most 1 MiB with a cold cache (so the stream starts
at byte 0), every non-blank line strict (so the permissive and strict
parsers coincide), and chronologically non-decreasing records (so the
stream's early exit drops nothing).  Then `readLogs`'s logs equal
`streamLogs`'s emissions, and the SSE events before the sentinel are
exactly those logs as `data` events.  Each condition is needed: the
counterexample breaks the equality with an empty filter alone. -/
theorem C5_amended (sizes sizes2 : List Nat) (nowStr : CStr)
    (y m d : Nat) (file : CStr) (filter : LogFilter) (lo hi : Int)
    (live : List LogEntry)
    (hf : filter.fromT = some lo) (ht : filter.toT = some hi)
    (hoff : filter.offset.getD 0 = 0)
    (hsize : ¬ file.length > 1048576)
    (hstrict : ∀ l ∈ splitNl file,
      isBlank l = true ∨ parseLogLineStrict l ≠ none)
    (hm : MonotoneLines (splitNl file)) :
    (readLogs sizes nowStr y m d file filter).logs =
      (streamLogs sizes2 none file filter).emitted ∧
    (apiLogsStreamEvents sizes2 none file filter live).takeWhile
        (fun ev => ¬ ev.isEnd) =
      (readLogs sizes nowStr y m d file filter).logs.map SseEvent.data := by
  have h1 : (readLogs sizes nowStr y m d file filter).logs =
      (streamLogs sizes2 none file filter).emitted := by
    rw [readLogs_eq, streamLogs_cold_small sizes2 file filter lo hf hsize]
    show (match filter.limit with
      | some k =>
        ((bulkMatches (effectiveFilter y m d filter) nowStr file).drop
          (filter.offset.getD 0)).take k
      | none =>
        (bulkMatches (effectiveFilter y m d filter) nowStr file).drop
          (filter.offset.getD 0)) = readerEmit filter sizes2 file
    have hcb : bulkMatches (effectiveFilter y m d filter) nowStr file =
        strictMatches filter (splitNl file) := by
      rw [effectiveFilter_id y m d filter lo hi hf ht]
      unfold bulkMatches
      exact collectLines_eq_strict filter nowStr (splitNl file) hstrict
    rw [readerEmit_canonical _ _ _ hm]
    simp only [hoff, List.drop_zero, hcb]
    cases filter.limit <;> simp [takeLimit]
  refine ⟨h1, ?_⟩
  unfold apiLogsStreamEvents sseStart
  rw [sse_foldl, List.nil_append, Nat.zero_add, List.append_assoc,
    List.singleton_append, takeWhile_data_events, h1]

set_option maxRecDepth 8000 in
/-- Witness for `C5_amended` on the chronological two-record file with
`from = 08:00`, `to = 09:00`: both surfaces return exactly `entryA`. -/
theorem C5_amended_witness :
    (filterC5.offset.getD 0 = 0 ∧
     ¬ fileAB.length > 1048576 ∧
     (∀ l ∈ splitNl fileAB,
       isBlank l = true ∨ parseLogLineStrict l ≠ none) ∧
     MonotoneLines (splitNl fileAB)) ∧
    ((readLogs [5] nowStr26 2026 2 3 fileAB filterC5).logs =
      (streamLogs [7] none fileAB filterC5).emitted ∧
     (apiLogsStreamEvents [7] none fileAB filterC5 []).takeWhile
        (fun ev => ¬ ev.isEnd) =
      (readLogs [5] nowStr26 2026 2 3 fileAB filterC5).logs.map
        SseEvent.data) :=
  ⟨⟨by decide, by decide, by decide, by decide⟩,
   C5_amended [5] [7] nowStr26 2026 2 3 fileAB filterC5 t0800 t0900 []
     rfl rfl (by decide) (by decide) (by decide) (by decide)⟩

/-! ## Shared lemmas for the locator claims (C1, C2) -/

theorem idxOfNl_no_nl (s : CStr) (h : nlC ∉ s) : idxOfNl s = none := by
  induction s with
  | nil => rfl
  | cons c rest ih =>
    simp only [List.mem_cons, not_or] at h
    have hc : ¬ (c = nlC) := fun hcc => h.1 hcc.symm
    simp [idxOfNl, hc, ih h.2]

theorem idxOfNl_append_nl (a b : CStr) (h : nlC ∉ a) :
    idxOfNl (a ++ nlC :: b) = some a.length := by
  induction a with
  | nil => simp [idxOfNl]
  | cons c rest ih =>
    simp only [List.mem_cons, not_or] at h
    have hc : ¬ (c = nlC) := fun hcc => h.1 hcc.symm
    show idxOfNl (c :: (rest ++ nlC :: b)) = some (c :: rest).length
    simp [idxOfNl, hc, ih h.2]

theorem skipWs_cons_not_ws (c : Nat) (rest : CStr) (h : isWsC c = false) :
    skipWs (c :: rest) = c :: rest := by
  simp [skipWs, List.dropWhile_cons, h]

theorem jsonParseObj_not_brace (c : Nat) (rest : CStr)
    (hc : ¬ c = 123) (hw : isWsC c = false) :
    jsonParseObj (c :: rest) = none := by
  unfold jsonParseObj
  rw [skipWs_cons_not_ws c rest hw]
  split
  · rename_i heq
    exact absurd (List.cons.injEq .. ▸ congrArg id heq) (by simp [hc])
  · rfl

theorem isBlank_x_run (n : Nat) :
    isBlank (List.replicate (n + 1) 120) = false := by
  rw [isBlank, List.all_eq_false]
  exact ⟨120, by simp [List.mem_replicate], by decide⟩

theorem strict_x_run (n : Nat) :
    parseLogLineStrict (List.replicate (n + 1) 120) = none := by
  unfold parseLogLineStrict
  rw [isBlank_x_run n, List.replicate_succ,
    jsonParseObj_not_brace 120 _ (by decide) (by decide)]
  rfl

theorem noiseFl_succ (k : Nat) (t : CStr) :
    noiseFl (k + 1) ++ t = noiseX ++ nlC :: (noiseFl k ++ t) := by
  show (List.replicate (k + 1) noiseB).flatten ++ t = _
  rw [List.replicate_succ, List.flatten_cons]
  show ((noiseX ++ [nlC]) ++ (List.replicate k noiseB).flatten) ++ t = _
  simp only [noiseFl, List.append_assoc, List.singleton_append,
    List.cons_append, List.nil_append]

theorem noiseFl_length (k : Nat) : (noiseFl k).length = k * 256 := by
  induction k with
  | zero => rfl
  | succ n ih =>
    have h := noiseFl_succ n []
    simp only [List.append_nil] at h
    rw [h]
    simp only [List.length_append, List.length_cons, ih, noiseX,
      List.length_replicate]
    omega

theorem splitNl_noiseFl (k : Nat) (t : CStr) :
    splitNl (noiseFl k ++ t) = List.replicate k noiseX ++ splitNl t := by
  induction k with
  | zero => simp [noiseFl]
  | succ n ih =>
    rw [noiseFl_succ n t,
      splitNl_cons_line noiseX (noiseFl n ++ t) (by decide), ih,
      List.replicate_succ]
    rfl

theorem scanLines_none (target : Int) (lines : List CStr)
    (h : ∀ l ∈ lines, parseLogLineStrict l = none) :
    ∀ off, scanLines target lines off = none := by
  induction lines with
  | nil => intro off; rfl
  | cons l rest ih =>
    intro off
    have hl := h l (List.mem_cons_self l rest)
    have hrest : ∀ l2 ∈ rest, parseLogLineStrict l2 = none :=
      fun l2 hl2 => h l2 (List.mem_cons_of_mem l hl2)
    by_cases hb : isBlank l = true
    · simp [scanLines, hb, ih hrest]
    · simp [scanLines, hb, hl, ih hrest]

theorem searchJson_none (target : Int) (lines : List CStr)
    (h : ∀ l ∈ lines, parseLogLineStrict l = none) :
    ∀ so, searchJson target lines so = ProbeStep.noJson := by
  induction lines with
  | nil => intro so; rfl
  | cons l rest ih =>
    intro so
    have hl := h l (List.mem_cons_self l rest)
    have hrest : ∀ l2 ∈ rest, parseLogLineStrict l2 = none :=
      fun l2 hl2 => h l2 (List.mem_cons_of_mem l hl2)
    by_cases hb : isBlank l = true
    · simp [searchJson, hb, ih hrest]
    · simp [searchJson, hb, hl, ih hrest]

theorem scanPhase_window_bound (file ext : CStr) (target : Int)
    (low : Nat) (h : low + 262144 ≤ file.length) :
    scanPhase (file ++ ext) (file ++ ext).length target low =
      scanPhase file file.length target low := by
  have h1 : min 262144 ((file ++ ext).length - low) = 262144 := by
    rw [List.length_append]
    omega
  have h2 : min 262144 (file.length - low) = 262144 := by omega
  have h3 : sliceCS (file ++ ext) low (low + 262144) =
      sliceCS file low (low + 262144) := by
    unfold sliceCS
    rw [Nat.add_sub_cancel_left, List.drop_append_eq_append_drop,
      show low - file.length = 0 by omega, List.drop_zero,
      List.take_append_of_le_length (by simp; omega)]
  simp only [scanPhase, h1, h2, h3]

/-! ## C2: the fixed confirmation window -/

theorem lineA_length : lineA.length = 63 := by decide

theorem gapFile_length : gapFile.length = 262208 := by
  show (List.replicate 262144 120 ++ nlC :: lineA).length = 262208
  rw [List.length_append, List.length_replicate, List.length_cons,
    lineA_length]

theorem gapFile_drop (m : Nat) (h : m ≤ 262144) :
    gapFile.drop m = List.replicate (262144 - m) 120 ++ nlC :: lineA := by
  unfold gapFile xgap
  rw [List.drop_append_eq_append_drop]
  simp only [List.drop_replicate, List.length_replicate]
  rw [show m - 262144 = 0 by omega, List.drop_zero]

theorem gapFile_chunk (m k : Nat) (h : m + k ≤ 262144) :
    sliceCS gapFile m (m + k) = List.replicate k 120 := by
  unfold sliceCS
  rw [Nat.add_sub_cancel_left, gapFile_drop m (by omega),
    List.take_append_of_le_length (by simp; omega), List.take_replicate,
    show min k (262144 - m) = k by omega]

theorem gapFile_large_chunk (m : Nat) (h : m ≤ 262144) :
    sliceCS gapFile m (m + (262208 - m)) =
      List.replicate (262144 - m) 120 ++ nlC :: lineA := by
  unfold sliceCS
  rw [Nat.add_sub_cancel_left, gapFile_drop m h,
    List.take_of_length_le (by simp [lineA_length]; omega)]

theorem drop_past_nl (k : Nat) (b : CStr) :
    (List.replicate k (120 : Nat) ++ nlC :: b).drop (k + 1) = b := by
  rw [List.drop_append_eq_append_drop]
  simp only [List.drop_replicate, List.length_replicate,
    show k - (k + 1) = 0 by omega, show k + 1 - k = 1 by omega,
    List.replicate_zero, List.nil_append, List.drop_succ_cons,
    List.drop_zero]

theorem binLoop_exit (file : CStr) (fs : Nat) (t : Int)
    (fuel low high : Nat) (h : high - low ≤ 65536) :
    binLoop file fs t (fuel + 1) low high = low := by
  rw [binLoop, if_pos h]

theorem binLoop_gap_step (fuel high : Nat) (hh : high ≤ 262208)
    (hg : 65536 < high) :
    binLoop gapFile 262208 cexTarget (fuel + 1) 0 high =
      binLoop gapFile 262208 cexTarget fuel 0 (high / 2) := by
  have hguard : ¬ (high - 0 ≤ 65536) := by omega
  have hchunkmin : min 4096 (262208 - (high / 2)) = 4096 := by omega
  have hchunk : sliceCS gapFile (high / 2) (high / 2 + 4096) =
      List.replicate 4096 120 := gapFile_chunk _ 4096 (by omega)
  have hidx : idxOfNl (List.replicate 4096 120) = none :=
    idxOfNl_no_nl _
      (by simp only [List.mem_replicate]; intro h; exact absurd h.2 (by decide))
  have hlarge : min 4194304 (262208 - (high / 2)) = 262208 - (high / 2) :=
    by omega
  have hgt2 : 262208 - (high / 2) > 4096 := by omega
  have hlchunk : sliceCS gapFile (high / 2)
        (high / 2 + (262208 - (high / 2))) =
      List.replicate (262144 - (high / 2)) 120 ++ nlC :: lineA :=
    gapFile_large_chunk _ (by omega)
  have hidx2 : idxOfNl
        (List.replicate (262144 - (high / 2)) 120 ++ nlC :: lineA) =
      some (262144 - (high / 2)) := by
    rw [idxOfNl_append_nl _ _
      (by simp only [List.mem_replicate]; intro h; exact absurd h.2 (by decide))]
    simp only [List.length_replicate]
  have hrest := drop_past_nl (262144 - (high / 2)) lineA
  have hidxA : idxOfNl lineA = none := by decide
  have hblankA : isBlank lineA = false := by decide
  have hstrictA : parseLogLineStrict lineA = some entryLineA := by decide
  have hdA : parseLogDateOpt entryLineA.time =
      some (msOfCivil 2026 1 1 0 0 0 0 0) := by decide
  have hcmp : ¬ compareDates (msOfCivil 2026 1 1 0 0 0 0 0) cexTarget < 0 :=
    by decide
  simp only [binLoop, Nat.zero_add]
  rw [if_neg hguard]
  simp only [hchunkmin, hchunk, hidx, hlarge, hlchunk, hidx2, hrest,
    hidxA, hblankA, hstrictA, hdA]
  rw [if_pos hgt2, if_pos (by simp), if_neg hcmp]

theorem xgap_length : xgap.length = 262144 := by
  show (List.replicate 262144 (120 : Nat)).length = 262144
  rw [List.length_replicate]

theorem binLoop_gap (fuel : Nat) :
    binLoop gapFile 262208 cexTarget (fuel + 4) 0 262208 = 0 := by
  show binLoop gapFile 262208 cexTarget ((fuel + 3) + 1) 0 262208 = 0
  rw [binLoop_gap_step (fuel + 3) 262208 (by omega) (by omega),
    show (262208 : Nat) / 2 = 131104 by norm_num]
  show binLoop gapFile 262208 cexTarget ((fuel + 2) + 1) 0 131104 = 0
  rw [binLoop_gap_step (fuel + 2) 131104 (by omega) (by omega),
    show (131104 : Nat) / 2 = 65552 by norm_num]
  show binLoop gapFile 262208 cexTarget ((fuel + 1) + 1) 0 65552 = 0
  rw [binLoop_gap_step (fuel + 1) 65552 (by omega) (by omega),
    show (65552 : Nat) / 2 = 32776 by norm_num]
  exact binLoop_exit gapFile 262208 cexTarget fuel 0 32776 (by omega)

theorem scanPhase_zero_none (file : CStr) (fs : Nat) (target : Int)
    (h : ∀ l ∈ splitNl (sliceCS file 0 (0 + min 262144 (fs - 0))),
      parseLogLineStrict l = none) :
    scanPhase file fs target 0 = (0, []) := by
  simp only [scanPhase]
  rw [if_neg (by omega), if_neg (by omega),
    scanLines_none target _ h _]

theorem scanPhase_gap : scanPhase gapFile 262208 cexTarget 0 = (0, []) := by
  apply scanPhase_zero_none
  have hc : sliceCS gapFile 0 (0 + min 262144 (262208 - 0)) =
      List.replicate 262144 120 := by
    rw [show (0 : Nat) + min 262144 (262208 - 0) = 0 + 262144 by norm_num]
    exact gapFile_chunk 0 262144 (by omega)
  rw [hc, splitNl_no_nl _
    (by simp only [List.mem_replicate]; intro h; exact absurd h.2 (by decide))]
  intro l hl
  rw [List.mem_singleton] at hl
  subst hl
  exact strict_x_run 262143

set_option maxRecDepth 8000 in
theorem firstQual_gap : firstQual gapFile cexTarget = some (262145, lineA) := by
  unfold firstQual linesWithPos
  have hsplit : splitNl gapFile = xgap :: [lineA] := by
    show splitNl (xgap ++ nlC :: lineA) = _
    rw [splitNl_cons_line xgap lineA
        (by simp only [xgap, List.mem_replicate]
            intro h
            exact absurd h.2 (by decide)),
      splitNl_no_nl lineA (by decide)]
  rw [hsplit]
  simp only [withPos]
  have hx : parseLogLineStrict xgap = none := strict_x_run 262143
  have hq1 : qualifiesAt cexTarget (0, xgap) = false := by
    simp only [qualifiesAt, strictTime, hx]
  have hpos : 0 + xgap.length + 1 = 262145 := by rw [xgap_length]
  rw [List.find?_cons_of_neg _ (by simp [hq1]), hpos,
    List.find?_cons_of_pos _ (by decide : qualifiesAt cexTarget (262145, lineA) = true)]

theorem findOffset_gap :
    findOffsetForDate gapFile cexTarget gapFile.length = (0, []) := by
  unfold findOffsetForDate
  rw [gapFile_length, show (262208 : Nat) + 1 = 262205 + 4 by norm_num,
    binLoop_gap 262205]
  exact scanPhase_gap

/-- **C2.**  The claim is false of the code and the spec captures the
intended behaviour (the repository's own regression tests label this
scenario a BUG): the confirmation scan uses a single fixed window of
`min(262144, fileSize - low)` characters and never enlarges it —
formally, the scan's result is identical on any extension of the file
beyond the window (first conjunct), so it can never continue to EOF.
In particular on `gapFile` — a 256 KiB non-JSON region followed by a
strict record dated 2026, targeted at 2025-01-01 — a qualifying record
exists (at offset 262145, the second conjunct) yet the locator returns
the empty-first-line "not found" sentinel (third conjunct). -/
theorem C2_window_fixed :
    (∀ (file ext : CStr) (target : Int) (low : Nat),
      low + 262144 ≤ file.length →
      scanPhase (file ++ ext) (file ++ ext).length target low =
        scanPhase file file.length target low) ∧
    firstQual gapFile cexTarget = some (262145, lineA) ∧
    findOffsetForDate gapFile cexTarget gapFile.length = (0, []) :=
  ⟨scanPhase_window_bound, firstQual_gap, findOffset_gap⟩

/-- Witness for `C2_window_fixed`: the window-independence conjunct
instantiated at the 256 KiB `x` region itself. -/
theorem C2_window_fixed_witness :
    0 + 262144 ≤ xgap.length ∧
    scanPhase (xgap ++ [nlC]) (xgap ++ [nlC]).length cexTarget 0 =
      scanPhase xgap xgap.length cexTarget 0 :=
  ⟨by rw [xgap_length], C2_window_fixed.1 xgap [nlC] cexTarget 0 (by rw [xgap_length])⟩

/-! ## C1: the locator on the noise counterexample -/

theorem cexFile_length : cexFile.length = 65600 := by
  show (lineA ++ nlC :: noiseFl 256).length = 65600
  rw [List.length_append, lineA_length, List.length_cons, noiseFl_length]

theorem cexFile_drop (n : Nat) :
    cexFile.drop (64 + n) = (noiseFl 256).drop n := by
  show (lineA ++ nlC :: noiseFl 256).drop (64 + n) = _
  rw [List.drop_append_eq_append_drop,
    List.drop_eq_nil_of_le (by rw [lineA_length]; omega), List.nil_append,
    lineA_length, show 64 + n - 63 = n + 1 by omega, List.drop_succ_cons]

theorem noiseFl_add (a b : Nat) : noiseFl (a + b) = noiseFl a ++ noiseFl b := by
  unfold noiseFl
  rw [List.replicate_add, List.flatten_append]

theorem noiseFl_succ_nil (k : Nat) :
    noiseFl (k + 1) = noiseX ++ nlC :: noiseFl k := by
  have h := noiseFl_succ k []
  simp only [List.append_nil] at h
  exact h

theorem noiseFl_drop_blocks (j k : Nat) :
    (noiseFl (j + k)).drop (j * 256) = noiseFl k := by
  rw [noiseFl_add, List.drop_left' (noiseFl_length j)]

theorem cexFile_drop_mid (j : Nat) (h : j + 1 ≤ 256) :
    cexFile.drop (64 + (j * 256 + 224)) =
      List.replicate 31 120 ++ nlC :: noiseFl (256 - j - 1) := by
  rw [cexFile_drop (j * 256 + 224),
    show noiseFl 256 = noiseFl j ++ noiseFl (256 - j) from by
      rw [← noiseFl_add]; congr 1; omega,
    ← List.drop_drop, List.drop_left' (noiseFl_length j),
    show noiseFl (256 - j) = noiseX ++ nlC :: noiseFl (256 - j - 1) from by
      rw [show 256 - j = (256 - j - 1) + 1 by omega]; exact noiseFl_succ_nil _,
    List.drop_append_eq_append_drop]
  simp only [noiseX, List.drop_replicate, List.length_replicate]
  rw [show (224 : Nat) - 255 = 0 by norm_num,
    show (255 : Nat) - 224 = 31 by norm_num, List.drop_zero]

theorem noiseFl_take (j k m : Nat) (h : m ≤ 255) :
    (noiseFl (j + k + 1)).take (j * 256 + m) =
      noiseFl j ++ List.replicate m 120 := by
  rw [show j + k + 1 = j + (k + 1) by omega, noiseFl_add j (k + 1),
    show j * 256 + m = (noiseFl j).length + m from by rw [noiseFl_length],
    List.take_append, noiseFl_succ_nil k, List.take_append_eq_append_take]
  simp only [noiseX, List.take_replicate, List.length_replicate]
  rw [show min m 255 = m by omega, show m - 255 = 0 by omega, List.take_zero,
    List.append_nil]

theorem cex_chunk :
    sliceCS cexFile 32800 36896 =
      List.replicate 31 120 ++
        nlC :: (noiseFl 15 ++ List.replicate 224 120) := by
  unfold sliceCS
  rw [show (36896 : Nat) - 32800 = 4096 by norm_num,
    show (32800 : Nat) = 64 + (127 * 256 + 224) by norm_num,
    cexFile_drop_mid 127 (by omega),
    show (256 : Nat) - 127 - 1 = 128 by norm_num,
    List.take_append_eq_append_take]
  simp only [List.length_replicate, List.take_replicate]
  rw [show min 4096 31 = 31 by norm_num, show (4096 : Nat) - 31 = 4065 by norm_num,
    show (4065 : Nat) = 4064 + 1 by norm_num, List.take_succ_cons,
    show (noiseFl 128).take 4064 = noiseFl 15 ++ List.replicate 224 120 from by
      rw [show (128 : Nat) = 15 + 112 + 1 by norm_num,
        show (4064 : Nat) = 15 * 256 + 224 by norm_num]
      exact noiseFl_take 15 112 224 (by omega)]

theorem cex_restOfChunk_idx :
    idxOfNl (noiseFl 15 ++ List.replicate 224 120) = some 255 := by
  rw [show noiseFl 15 ++ List.replicate 224 120 =
      noiseX ++ nlC :: (noiseFl 14 ++ List.replicate 224 120) from
    noiseFl_succ 14 _]
  rw [idxOfNl_append_nl _ _
    (by simp only [noiseX, List.mem_replicate]
        intro h
        exact absurd h.2 (by decide))]
  simp only [noiseX, List.length_replicate]

theorem cex_restOfChunk_line :
    (noiseFl 15 ++ List.replicate 224 120).take 255 = noiseX := by
  rw [show noiseFl 15 ++ List.replicate 224 120 =
      noiseX ++ nlC :: (noiseFl 14 ++ List.replicate 224 120) from
    noiseFl_succ 14 _]
  rw [List.take_append_of_le_length
      (by simp only [noiseX, List.length_replicate]; omega),
    List.take_of_length_le (by simp only [noiseX, List.length_replicate]; omega)]

theorem cex_restOfChunk_split :
    (splitNl (noiseFl 15 ++ List.replicate 224 120)).drop 1 =
      List.replicate 14 noiseX ++ [List.replicate 224 120] := by
  rw [splitNl_noiseFl,
    splitNl_no_nl _
      (by simp only [List.mem_replicate]; intro h; exact absurd h.2 (by decide)),
    show List.replicate 15 noiseX = noiseX :: List.replicate 14 noiseX from rfl,
    List.cons_append, List.drop_succ_cons, List.drop_zero]

theorem cex_search (so : Nat) :
    searchJson cexTarget
      (List.replicate 14 noiseX ++ [List.replicate 224 120]) so =
      ProbeStep.noJson := by
  apply searchJson_none
  intro l hl
  rcases List.mem_append.mp hl with h | h
  · rw [List.eq_of_mem_replicate h]
    exact strict_x_run 254
  · rw [List.mem_singleton.mp h]
    exact strict_x_run 223

theorem binLoop_step_noJson (file : CStr) (fs : Nat) (target : Int)
    (fuel low high mid cs np : Nat) (a b rest : CStr)
    (hguard : ¬ (high - low ≤ 65536))
    (hmid : (low + high) / 2 = mid)
    (hcs : min 4096 (fs - mid) = cs)
    (hchunk : sliceCS file mid (mid + cs) = a)
    (hidx : idxOfNl a = some np)
    (hrest : a.drop (np + 1) = rest)
    (hline : (match idxOfNl rest with
              | none => rest
              | some nn => rest.take nn) = b)
    (hblank : isBlank b = false)
    (hstrict : parseLogLineStrict b = none)
    (hsearch : searchJson target ((splitNl rest).drop 1) (mid + np + 1) =
      ProbeStep.noJson) :
    binLoop file fs target (fuel + 1) low high =
      binLoop file fs target fuel (mid + cs) high := by
  simp only [binLoop]
  rw [if_neg hguard]
  simp only [hmid, hcs, hchunk, hidx, hrest, hline, hblank, hstrict,
    hsearch]
  rw [if_neg (by simp)]

theorem binLoop_cex_step (fuel : Nat) :
    binLoop cexFile 65600 cexTarget (fuel + 1) 0 65600 =
      binLoop cexFile 65600 cexTarget fuel 36896 65600 := by
  have hidx : idxOfNl (List.replicate 31 120 ++
      nlC :: (noiseFl 15 ++ List.replicate 224 120)) = some 31 := by
    rw [idxOfNl_append_nl _ _
      (by simp only [List.mem_replicate]; intro h; exact absurd h.2 (by decide))]
    simp only [List.length_replicate]
  have h := binLoop_step_noJson cexFile 65600 cexTarget fuel 0 65600
    32800 4096 31
    (List.replicate 31 120 ++ nlC :: (noiseFl 15 ++ List.replicate 224 120))
    noiseX
    (noiseFl 15 ++ List.replicate 224 120)
    (by omega) (by norm_num) (by norm_num)
    (by rw [show (32800 : Nat) + 4096 = 36896 by norm_num]; exact cex_chunk)
    hidx
    (drop_past_nl 31 _)
    (by simp only [cex_restOfChunk_idx]; exact cex_restOfChunk_line)
    (isBlank_x_run 254) (strict_x_run 254)
    (by rw [cex_restOfChunk_split]; exact cex_search _)
  rw [show (32800 : Nat) + 4096 = 36896 by norm_num] at h
  exact h

theorem binLoop_cex_trace (fuel : Nat) :
    binLoop cexFile 65600 cexTarget (fuel + 2) 0 65600 = 36896 := by
  show binLoop cexFile 65600 cexTarget ((fuel + 1) + 1) 0 65600 = 36896
  rw [binLoop_cex_step (fuel + 1)]
  exact binLoop_exit cexFile 65600 cexTarget fuel 36896 65600 (by omega)

theorem scanPhase_pos_none (file : CStr) (fs : Nat) (target : Int)
    (low : Nat) (hlow : 0 < low)
    (h : ∀ l ∈ (splitNl (sliceCS file low (low + min 262144 (fs - low)))).drop 1,
      parseLogLineStrict l = none) :
    scanPhase file fs target low = (low, []) := by
  simp only [scanPhase]
  rw [if_pos hlow, if_pos hlow, scanLines_none target _ h _]

theorem cex_scan_drop :
    cexFile.drop 36896 = List.replicate 31 120 ++ nlC :: noiseFl 112 := by
  rw [show (36896 : Nat) = 64 + (143 * 256 + 224) by norm_num,
    cexFile_drop_mid 143 (by omega),
    show (256 : Nat) - 143 - 1 = 112 by norm_num]

theorem cex_scan_chunk_len :
    (List.replicate 31 (120 : Nat) ++ nlC :: noiseFl 112).length = 28704 := by
  rw [List.length_append, List.length_cons, List.length_replicate,
    noiseFl_length]

theorem cex_scan_chunk :
    sliceCS cexFile 36896 65600 =
      List.replicate 31 120 ++ nlC :: noiseFl 112 := by
  show (cexFile.drop 36896).take (65600 - 36896) =
    List.replicate 31 120 ++ nlC :: noiseFl 112
  rw [show (65600 : Nat) - 36896 = 28704 by norm_num, cex_scan_drop,
    List.take_of_length_le (by rw [cex_scan_chunk_len])]

theorem splitNl_noiseFl_nil (k : Nat) :
    splitNl (noiseFl k) = List.replicate k noiseX ++ [[]] := by
  have h := splitNl_noiseFl k []
  rw [List.append_nil] at h
  exact h

theorem scanPhase_cex : scanPhase cexFile 65600 cexTarget 36896 = (36896, []) := by
  apply scanPhase_pos_none _ _ _ _ (by omega)
  rw [show (36896 : Nat) + min 262144 (65600 - 36896) = 65600 by norm_num,
    cex_scan_chunk,
    splitNl_cons_line _ _
      (by simp only [List.mem_replicate]; intro h; exact absurd h.2 (by decide)),
    splitNl_noiseFl_nil, List.drop_succ_cons, List.drop_zero]
  intro l hl
  rcases List.mem_append.mp hl with h | h
  · rw [List.eq_of_mem_replicate h]
    exact strict_x_run 254
  · rw [List.mem_singleton.mp h]
    decide

theorem findOffset_cex :
    findOffsetForDate cexFile cexTarget cexFile.length = (36896, []) := by
  unfold findOffsetForDate
  rw [cexFile_length, show (65600 : Nat) + 1 = 65599 + 2 by norm_num,
    binLoop_cex_trace 65599]
  exact scanPhase_cex

set_option maxRecDepth 8000 in
theorem firstQual_cex : firstQual cexFile cexTarget = some (0, lineA) := by
  unfold firstQual linesWithPos
  have hsplit : splitNl cexFile =
      lineA :: (List.replicate 256 noiseX ++ [[]]) := by
    show splitNl (lineA ++ nlC :: noiseFl 256) = _
    rw [splitNl_cons_line lineA _ (by decide), splitNl_noiseFl_nil]
  rw [hsplit]
  simp only [withPos]
  rw [List.find?_cons_of_pos _
    (by decide : qualifiesAt cexTarget (0, lineA) = true)]

set_option maxRecDepth 8000 in
/-- **C1, counterexample.**  Locator correctness fails: on `cexFile` —
one qualifying strict record at offset 0 followed by 64 KiB of non-JSON
noise — the first qualifying line start is offset 0 (first conjunct),
but the binary search's noise branch jumps `low` to `mid + chunkSize`
(36896), the loop then exits, and the confirmation scan sees only
noise, so `findOffsetForDate` returns the empty-line sentinel at offset
36896 (second conjunct) instead of the qualifying record at a smaller
offset.  Hence the locator contract is violated (third conjunct). -/
theorem C1_cex :
    firstQual cexFile cexTarget = some (0, lineA) ∧
    findOffsetForDate cexFile cexTarget cexFile.length = (36896, []) ∧
    ¬ LocatorCorrect cexFile cexTarget := by
  refine ⟨firstQual_cex, findOffset_cex, ?_⟩
  simp only [LocatorCorrect, firstQual_cex, findOffset_cex]
  intro hcontra
  simp only [Prod.mk.injEq] at hcontra
  exact absurd hcontra.1 (by decide)

/-! ## C1: the amended locator and reader guarantees -/

theorem procLines_mem (f : LogFilter) (limit : Option Nat)
    (lines : List CStr) :
    ∀ (count : Nat) (acc : List LogEntry) (e : LogEntry),
      e ∈ (procLines f limit lines count acc).2 →
      e ∈ acc ∨ filterLog e f = true := by
  induction lines with
  | nil =>
    intro count acc e h
    exact Or.inl h
  | cons l rest ih =>
    intro count acc e h
    simp only [procLines] at h
    by_cases hlim : limitReached limit count = true
    · rw [if_pos hlim] at h
      exact Or.inl h
    · rw [if_neg hlim] at h
      cases hp : parseLogLineStrict l with
      | none =>
        simp only [hp] at h
        exact ih count acc e h
      | some e2 =>
        simp only [hp] at h
        by_cases hfil : filterLog e2 f = true
        · rw [if_pos hfil] at h
          rcases ih (count + 1) (acc ++ [e2]) e h with hin | hok
          · rcases List.mem_append.mp hin with ha | hb
            · exact Or.inl ha
            · right
              rw [List.mem_singleton.mp hb]
              exact hfil
          · exact Or.inr hok
        · rw [if_neg hfil] at h
          cases hto : f.toT with
          | none =>
            simp only [hto] at h
            exact ih count acc e h
          | some hi =>
            simp only [hto] at h
            cases hpd : parseLogDateOpt e2.time with
            | none =>
              simp only [hpd] at h
              exact ih count acc e h
            | some t =>
              simp only [hpd] at h
              by_cases hlt : hi < t
              · rw [if_pos hlt] at h
                exact Or.inl h
              · rw [if_neg hlt] at h
                exact ih count acc e h

theorem procChunks_mem (f : LogFilter) (limit : Option Nat)
    (chunks : List CStr) :
    ∀ (buffer : CStr) (count : Nat) (acc : List LogEntry) (e : LogEntry),
      e ∈ (procChunks f limit chunks buffer count acc).2.2 →
      e ∈ acc ∨ filterLog e f = true := by
  induction chunks with
  | nil =>
    intro buffer count acc e h
    exact Or.inl h
  | cons c rest ih =>
    intro buffer count acc e h
    simp only [procChunks] at h
    by_cases hlim : limitReached limit
        (procLines f limit (splitNl (buffer ++ c)).dropLast count acc).1 = true
    · rw [if_pos hlim] at h
      exact procLines_mem f limit _ count acc e h
    · rw [if_neg hlim] at h
      rcases ih _ _ _ e h with hin | hok
      · exact procLines_mem f limit _ count acc e hin
      · exact Or.inr hok

theorem readerEmit_mem (f : LogFilter) (sizes : List Nat) (slice : CStr)
    (e : LogEntry) (h : e ∈ readerEmit f sizes slice) :
    filterLog e f = true := by
  have hbase : ∀ e2 ∈ (procChunks f f.limit (chunksOf sizes slice) [] 0 []).2.2,
      filterLog e2 f = true := by
    intro e2 h2
    rcases procChunks_mem f f.limit (chunksOf sizes slice) [] 0 [] e2 h2 with
      hin | hok
    · exact absurd hin (List.not_mem_nil e2)
    · exact hok
  simp only [readerEmit] at h
  split at h
  · split at h
    · split at h
      · rename_i e2 hp hfil
        rcases List.mem_append.mp h with h1 | h1
        · exact hbase e h1
        · rw [List.mem_singleton.mp h1]
          exact hfil
      · exact hbase e h
    · exact hbase e h
  · exact hbase e h

theorem compareDates_nonneg (a b : Int) :
    compareDates a b ≥ 0 ↔ b ≤ a := by
  unfold compareDates
  by_cases h1 : a < b
  · rw [if_pos h1]
    constructor
    · intro hc
      omega
    · intro hc
      omega
  · rw [if_neg h1]
    by_cases h2 : b < a
    · rw [if_pos h2]
      constructor
      · intro hc
        omega
      · intro hc
        omega
    · rw [if_neg h2]
      constructor
      · intro hc
        omega
      · intro hc
        omega

theorem scanLines_eq_find (target : Int) (lines : List CStr) :
    ∀ off, scanLines target lines off =
      (withPos off lines).find? (qualifiesAt target) := by
  induction lines with
  | nil => intro off; rfl
  | cons l rest ih =>
    intro off
    have hwp : withPos off (l :: rest) =
        (off, l) :: withPos (off + l.length + 1) rest := rfl
    rw [hwp]
    by_cases hb : isBlank l = true
    · have hq : qualifiesAt target (off, l) = false := by
        simp [qualifiesAt, strictTime, parseLogLineStrict, hb]
      rw [show scanLines target (l :: rest) off =
          scanLines target rest (off + l.length + 1) from by
        simp [scanLines, hb]]
      rw [List.find?_cons_of_neg _ (by simp [hq]), ih]
    · have hbf : isBlank l = false := by
        revert hb
        cases isBlank l <;> simp
      cases hp : parseLogLineStrict l with
      | none =>
        have hq : qualifiesAt target (off, l) = false := by
          simp [qualifiesAt, strictTime, hp]
        rw [show scanLines target (l :: rest) off =
            scanLines target rest (off + l.length + 1) from by
          simp [scanLines, hbf, hp]]
        rw [List.find?_cons_of_neg _ (by simp [hq]), ih]
      | some e =>
        cases hpd : parseLogDateOpt e.time with
        | none =>
          have hq : qualifiesAt target (off, l) = false := by
            simp [qualifiesAt, strictTime, hp, hpd]
          rw [show scanLines target (l :: rest) off =
              scanLines target rest (off + l.length + 1) from by
            simp [scanLines, hbf, hp, hpd]]
          rw [List.find?_cons_of_neg _ (by simp [hq]), ih]
        | some t =>
          by_cases hge : compareDates t target ≥ 0
          · have hle : target ≤ t := (compareDates_nonneg t target).mp hge
            have hq : qualifiesAt target (off, l) = true := by
              simp [qualifiesAt, strictTime, hp, hpd, hle]
            rw [show scanLines target (l :: rest) off = some (off, l) from by
              simp [scanLines, hbf, hp, hpd, hge]]
            rw [List.find?_cons_of_pos _ hq]
          · have hnle : ¬ target ≤ t := fun hc =>
              hge ((compareDates_nonneg t target).mpr hc)
            have hq : qualifiesAt target (off, l) = false := by
              simp [qualifiesAt, strictTime, hp, hpd, hnle]
            rw [show scanLines target (l :: rest) off =
                scanLines target rest (off + l.length + 1) from by
              simp [scanLines, hbf, hp, hpd, hge]]
            rw [List.find?_cons_of_neg _ (by simp [hq]), ih]

theorem scanPhase_cases (file : CStr) (fs : Nat) (target : Int) (low : Nat) :
    scanPhase file fs target low = (low, []) ∨
    qualifiesAt target (scanPhase file fs target low) = true := by
  simp only [scanPhase]
  split
  · rename_i o l hsc
    right
    rw [scanLines_eq_find] at hsc
    exact List.find?_some hsc
  · left
    rfl

theorem scanPhase_zero_eq (file : CStr) (target : Int)
    (hsmall : file.length ≤ 262144) :
    scanPhase file file.length target 0 =
      match firstQual file target with
      | some (o, l) => (o, l)
      | none => (0, []) := by
  have hchunk : sliceCS file 0 (0 + min 262144 (file.length - 0)) = file := by
    unfold sliceCS
    rw [List.drop_zero, Nat.sub_zero, Nat.zero_add, Nat.sub_zero,
      Nat.min_eq_right hsmall, List.take_length]
  simp only [scanPhase]
  rw [if_neg (by omega), if_neg (by omega), hchunk, scanLines_eq_find]
  rfl

theorem locator_small (file : CStr) (target : Int)
    (h : file.length ≤ 65536) : LocatorCorrect file target := by
  unfold LocatorCorrect
  have hf : findOffsetForDate file target file.length =
      match firstQual file target with
      | some (o, l) => (o, l)
      | none => (0, []) := by
    unfold findOffsetForDate
    rw [binLoop_exit file file.length target file.length 0 file.length
      (by omega)]
    exact scanPhase_zero_eq file target (by omega)
  cases hq : firstQual file target with
  | some p =>
    cases p with
    | mk o l => simp only [hq, hf]
  | none => simp only [hq, hf]

/-- **C1, amended.**  What is actually true of the locator and reader:
(1) every record the streaming reader emits under a filter with
`from = lo` parses to an instant `≥ lo` — for any file, chunking and
cache seed, since the emitted records all pass `filterLog`; (2) whenever
`findOffsetForDate` returns a non-sentinel first line, that line is a
strict record with instant `≥ target` (the confirmation scan only
accepts qualifying lines); and (3) the full locator contract — first
qualifying line start, or the sentinel when none exists — holds for
files of at most 65536 characters, where the binary search exits
immediately and the single scan window covers the whole file.  The
counterexample shows (3) cannot be extended past 65536. -/
theorem C1_amended :
    (∀ (filter : LogFilter) (lo : Int) (sizes : List Nat) (slice : CStr)
        (e : LogEntry), filter.fromT = some lo →
        e ∈ readerEmit filter sizes slice →
        ∃ t, parseLogDateOpt e.time = some t ∧ lo ≤ t) ∧
    (∀ (file : CStr) (target : Int) (fs : Nat),
        (findOffsetForDate file target fs).2 ≠ [] →
        qualifiesAt target (findOffsetForDate file target fs) = true) ∧
    (∀ (file : CStr) (target : Int), file.length ≤ 65536 →
        LocatorCorrect file target) := by
  refine ⟨?_, ?_, fun file target h => locator_small file target h⟩
  · intro filter lo sizes slice e hf he
    exact filterLog_from_bound e filter lo hf
      (readerEmit_mem filter sizes slice e he)
  · intro file target fs h
    unfold findOffsetForDate at h ⊢
    rcases scanPhase_cases file fs target
      (binLoop file fs target (fs + 1) 0 fs) with heq | hq
    · rw [heq] at h
      simp at h
    · exact hq

set_option maxRecDepth 8000 in
/-- Witness for `C1_amended`: the reader bound on a two-record file with
`from = 08:00`, the non-sentinel locator result for target 09:00 on
the same file, and the full locator contract on that 114-character
file. -/
theorem C1_amended_witness :
    (filterFrom8.fromT = some t0800 ∧
     entryB ∈ readerEmit filterFrom8 [] fileAB ∧
     (∃ t, parseLogDateOpt entryB.time = some t ∧ t0800 ≤ t)) ∧
    ((findOffsetForDate fileAB t0900 fileAB.length).2 ≠ [] ∧
     qualifiesAt t0900 (findOffsetForDate fileAB t0900 fileAB.length) = true) ∧
    (fileAB.length ≤ 65536 ∧ LocatorCorrect fileAB t0900) :=
  ⟨⟨rfl, by decide,
    C1_amended.1 filterFrom8 t0800 [] fileAB entryB rfl (by decide)⟩,
   ⟨by decide, C1_amended.2.1 fileAB t0900 fileAB.length (by decide)⟩,
   ⟨by decide, C1_amended.2.2 fileAB t0900 (by decide)⟩⟩
